import Mathlib

/-!
Verification of the sanitization policy engine of `src/sanitize.js`
(XSS-Sanitizer).  Strings are modelled as lists of Unicode code points
(`Str`); JavaScript's per-character operations (the control/whitespace
stripping regex, `toLowerCase` on the ASCII range that is relevant to
every scheme/tag/attribute comparison the code performs, `trim`,
`split(/\s+/)`) are modelled charwise.  The DOM tree is modelled as a
pure inductive of element and text nodes carrying identities (node
ids), and the mutation of the DOM performed by the walker is modelled
by explicit state passing over a state holding the live tree (the
children of `body`) together with the detached subtrees.
-/

abbrev Str := List Char

/-- The character class of JavaScript's `\s` (ECMAScript WhiteSpace and
LineTerminator), which is also the set removed by `String.trim`. -/
def jsWs (c : Char) : Bool :=
  decide (c.toNat = 0x09 ∨ c.toNat = 0x0A ∨ c.toNat = 0x0B ∨ c.toNat = 0x0C ∨
    c.toNat = 0x0D ∨ c.toNat = 0x20 ∨ c.toNat = 0xA0 ∨ c.toNat = 0x1680 ∨
    (0x2000 ≤ c.toNat ∧ c.toNat ≤ 0x200A) ∨ c.toNat = 0x2028 ∨ c.toNat = 0x2029 ∨
    c.toNat = 0x202F ∨ c.toNat = 0x205F ∨ c.toNat = 0x3000 ∨ c.toNat = 0xFEFF)

/-- The character class of the regex `[\u0000-\u001F\u007F\s]` used by
`isSafeUrl` to strip control characters and whitespace. -/
def stripClass (c : Char) : Bool :=
  decide (c.toNat ≤ 0x1F ∨ c.toNat = 0x7F) || jsWs c

/-- `String.prototype.toLowerCase`, restricted to the ASCII mapping; every
character comparison made by the sanitizer (schemes, tags, attribute
names, `rel` tokens) targets ASCII strings, for which this mapping agrees
with the JavaScript one. -/
def lowChar (c : Char) : Char :=
  if 65 ≤ c.toNat ∧ c.toNat ≤ 90 then Char.ofNat (c.toNat + 32) else c

def lowerStr (s : Str) : Str := s.map lowChar

/-- `String.prototype.trim`. -/
def jsTrim (s : Str) : Str :=
  ((s.dropWhile jsWs).reverse.dropWhile jsWs).reverse

/-- `a.startsWith(b)` as used by `isSafeUrl`. -/
def strStarts (p s : Str) : Bool := decide (s.take p.length = p)

/-- `s.indexOf(":")`: position of the first colon, `none` for JS's `-1`. -/
def idxOfColon (s : Str) : Option Nat := s.findIdx? (fun c => decide (c = ':'))

/-- `isSafeUrl` from `src/sanitize.js` (lines 32-56).  The `none` case is
JavaScript `null`/`undefined` input (falsy, like the empty string). -/
def isSafeUrl (raw : Option Str) : Bool :=
  match raw with
  | none => true
  | some s =>
    if s = [] then true
    else
      let value := jsTrim s
      let compact := (value.filter (fun c => ! stripClass c)).map lowChar
      if strStarts "javascript:".data compact then false
      else if strStarts "vbscript:".data compact then false
      else if strStarts "data:".data compact then false
      else if strStarts "file:".data compact then false
      else if strStarts "//".data compact then true
      else
        match idxOfColon compact with
        | some colon =>
          if 0 < colon then
            decide (compact.take colon = "http".data ∨ compact.take colon = "https".data)
          else true
        | none => true

/-- The URL validation algorithm exactly as the specification states it
(spec section 4.2): null/empty safe; strip control characters and
whitespace anywhere, lowercase; reject the four denylisted scheme
prefixes; accept protocol-relative; accept a scheme before the first
colon at position > 0 only when it is exactly http or https; otherwise
(no colon, or colon at position 0) accept as a relative reference. -/
def specSafeUrl (raw : Option Str) : Bool :=
  match raw with
  | none => true
  | some s =>
    if s = [] then true
    else
      let compact := (s.filter (fun c => ! stripClass c)).map lowChar
      if strStarts "javascript:".data compact ∨ strStarts "vbscript:".data compact ∨
          strStarts "data:".data compact ∨ strStarts "file:".data compact then false
      else if strStarts "//".data compact then true
      else
        match idxOfColon compact with
        | some colon =>
          if 0 < colon then
            decide (compact.take colon = "http".data ∨ compact.take colon = "https".data)
          else true
        | none => true

theorem filter_dropWhile_of_imp (p q : Char → Bool) (h : ∀ c, q c = true → p c = false) :
    ∀ l : List Char, (l.dropWhile q).filter p = l.filter p := by
  intro l
  induction l with
  | nil => rfl
  | cons c rest ih =>
    by_cases hq : q c = true
    · rw [List.dropWhile_cons_of_pos hq, ih, List.filter_cons_of_neg]
      simp [h c hq]
    · rw [List.dropWhile_cons_of_neg hq]

theorem filter_jsTrim (p : Char → Bool) (h : ∀ c, jsWs c = true → p c = false) (s : Str) :
    (jsTrim s).filter p = s.filter p := by
  unfold jsTrim
  rw [List.filter_reverse, filter_dropWhile_of_imp p jsWs h, List.filter_reverse,
    filter_dropWhile_of_imp p jsWs h, List.reverse_reverse]

theorem jsWs_stripClass (c : Char) (h : jsWs c = true) : stripClass c = true := by
  simp [stripClass, h]

/-- The normalized (`compact`) form computed by the code equals the one the
spec prescribes: the initial `trim` only removes characters that the
stripping pass removes anyway. -/
theorem compact_trim (s : Str) :
    ((jsTrim s).filter (fun c => ! stripClass c)).map lowChar =
      (s.filter (fun c => ! stripClass c)).map lowChar := by
  rw [filter_jsTrim]
  intro c hc
  simp [jsWs_stripClass c hc]

theorem isSafeUrl_eq_spec (raw : Option Str) : isSafeUrl raw = specSafeUrl raw := by
  cases raw with
  | none => rfl
  | some s =>
    by_cases hs : s = []
    · simp [isSafeUrl, specSafeUrl, hs]
    · simp only [isSafeUrl, specSafeUrl, if_neg hs]
      rw [compact_trim]
      set compact := (s.filter (fun c => ! stripClass c)).map lowChar with hc
      by_cases h1 : strStarts "javascript:".data compact = true <;>
        by_cases h2 : strStarts "vbscript:".data compact = true <;>
          by_cases h3 : strStarts "data:".data compact = true <;>
            by_cases h4 : strStarts "file:".data compact = true <;>
              simp [h1, h2, h3, h4]

example : isSafeUrl (some "javascript:alert(1)".data) = false := by decide
example : isSafeUrl (some "JaVa\tScRiPt:alert(1)".data) = false := by decide
example : isSafeUrl (some "https://example.com".data) = true := by decide
example : isSafeUrl (some "//cdn.example.com/lib.js".data) = true := by decide
example : isSafeUrl (some "/docs".data) = true := by decide
example : isSafeUrl (some "ftp://x".data) = false := by decide
example : isSafeUrl (some ":weird".data) = true := by decide
example : isSafeUrl none = true := by decide

/-! ### Policy tables (`SAFE_ELEMENTS`, `GLOBAL_ATTRS`, `TAG_ATTRS`, `ALWAYS_DROP`) -/

def SAFE_ELEMENTS : List Str :=
  ["a", "abbr", "b", "blockquote", "br", "code", "div", "em", "i", "img",
   "li", "ol", "p", "pre", "s", "small", "span", "strong", "sub", "sup",
   "table", "tbody", "td", "th", "thead", "tr", "u", "ul", "hr", "h1",
   "h2", "h3", "h4", "h5", "h6", "section", "article", "nav", "header",
   "footer"].map String.data

def GLOBAL_ATTRS : List Str := ["class", "id", "title", "role"].map String.data

/-- `TAG_ATTRS[tag] || new Set()`: the per-tag attribute table; tags absent
from the table and the table/thead/tbody/tr/th/td entries alike give the
empty set. -/
def TAG_ATTRS (tag : Str) : List Str :=
  if tag = "a".data then ["href", "target", "rel"].map String.data
  else if tag = "img".data then ["src", "alt", "width", "height"].map String.data
  else []

def ALWAYS_DROP : List Str :=
  ["script", "style", "template", "iframe", "object", "embed",
   "svg", "math", "base", "link", "meta"].map String.data

/-! ### Attribute filter -/

/-- `isAllowedAttr` from `src/sanitize.js` (lines 58-65). -/
def isAllowedAttr (tag name : Str) : Bool :=
  let n := lowerStr name
  if strStarts "on".data n then false
  else if n = "style".data then false
  else if GLOBAL_ATTRS.contains n then true
  else (TAG_ATTRS tag).contains n

/-- The attribute-name decision exactly as the spec states it
(`isAllowedAttribute`): false for `on`-prefixed or `style` names, true
for names in the global allowlist, else membership in the tag's
specific allowlist. -/
def specAllowedAttribute (tag name : Str) : Bool :=
  let n := lowerStr name
  if strStarts "on".data n ∨ n = "style".data then false
  else if GLOBAL_ATTRS.contains n then true
  else (TAG_ATTRS tag).contains n

theorem isAllowedAttr_eq_spec (tag name : Str) :
    isAllowedAttr tag name = specAllowedAttribute tag name := by
  unfold isAllowedAttr specAllowedAttribute
  by_cases h1 : strStarts "on".data (lowerStr name) = true <;>
    by_cases h2 : lowerStr name = "style".data <;> simp [h1, h2]

/-! ### DOM attribute-list primitives (`getAttribute`, `setAttribute`,
`removeAttribute`).  An element's attributes are an ordered list of
(name, value) pairs; the HTML parser hands the sanitizer lowercased,
duplicate-free attribute names, which the well-formedness hypotheses of
the later theorems record where needed. -/

def getAttr (attrs : List (Str × Str)) (n : Str) : Option Str :=
  (attrs.find? (fun a => decide (a.1 = n))).map Prod.snd

/-- `setAttribute`: replace the value of the first attribute with this
name in place, else append the attribute at the end. -/
def setAttr (attrs : List (Str × Str)) (n v : Str) : List (Str × Str) :=
  match attrs with
  | [] => [(n, v)]
  | a :: rest => if a.1 = n then (n, v) :: rest else a :: setAttr rest n v

/-- `removeAttribute`: remove the attribute with this name (unique in a
DOM element, so removing every match is the same operation). -/
def removeAttr (attrs : List (Str × Str)) (n : Str) : List (Str × Str) :=
  attrs.filter (fun a => ! decide (a.1 = n))

/-- One iteration of the attribute loop of `sanitizeElement`
(lines 101-118): `a` is the snapshot entry, `cur` the element's current
attribute list. -/
def attrStep (tag : Str) (cur : List (Str × Str)) (a : Str × Str) : List (Str × Str) :=
  let name := lowerStr a.1
  if ! isAllowedAttr tag name then removeAttr cur a.1
  else if (name = "href".data ∨ name = "src".data) ∧ isSafeUrl (some a.2) = false then
    removeAttr cur a.1
  else cur

/-- The attribute loop of `sanitizeElement`: iterate over a snapshot
(`Array.from(el.attributes)`) of the attribute list, removing from the
live list. -/
def sanitizeAttrs (tag : Str) (attrs : List (Str × Str)) : List (Str × Str) :=
  attrs.foldl (attrStep tag) attrs

/-! ### Link hardener (`ensureSafeLinkAttrs`, lines 67-77) -/

/-- `rel.split(/\s+/).filter(Boolean)`: the maximal runs of
non-whitespace characters.  The accumulator carries the current run
reversed. -/
def splitWsAux : Str → Str → List Str
  | [], acc => if acc = [] then [] else [acc.reverse]
  | c :: rest, acc =>
    if jsWs c then
      (if acc = [] then splitWsAux rest [] else acc.reverse :: splitWsAux rest [])
    else splitWsAux rest (c :: acc)

def splitWs (s : Str) : List Str := splitWsAux s []

/-- JavaScript `Set` insertion-order semantics: a token already inserted
(`seen`) is skipped, a new one is kept, so the first occurrence of each
token survives in first-seen order. -/
def dedupAux : List Str → List Str → List Str
  | [], _ => []
  | t :: ts, seen =>
    if t ∈ seen then dedupAux ts seen else t :: dedupAux ts (t :: seen)

def dedupKeepFirst (ts : List Str) : List Str := dedupAux ts []

/-- `Set.prototype.add`: a no-op when the token is present, else append. -/
def addIfAbsent (ts : List Str) (x : Str) : List Str :=
  if x ∈ ts then ts else ts ++ [x]

/-- `Array.from(parts).join(" ")`. -/
def joinSpace : List Str → Str
  | [] => []
  | [t] => t
  | t :: ts => t ++ ' ' :: joinSpace ts

/-- The token sequence the hardener writes back: the lowercased current
`rel` value (absent treated as empty), split on whitespace, deduplicated
preserving first-seen order, with `noopener` then `noreferrer` appended
when not already present. -/
def relTokens (attrs : List (Str × Str)) : List Str :=
  addIfAbsent (addIfAbsent
    (dedupKeepFirst (splitWs (lowerStr ((getAttr attrs "rel".data).getD []))))
    "noopener".data) "noreferrer".data

/-- `ensureSafeLinkAttrs` from `src/sanitize.js` (lines 67-77), as a
transformation of the element's attribute list; `tagName` is the raw tag
name, lowercased inside as the code does. -/
def ensureSafeLinkAttrs (tagName : Str) (attrs : List (Str × Str)) : List (Str × Str) :=
  if lowerStr tagName = "a".data ∧ getAttr attrs "target".data = some "_blank".data then
    setAttr attrs "rel".data (joinSpace (relTokens attrs))
  else attrs

example :
    ensureSafeLinkAttrs "a".data
      [("href".data, "https://x.com".data), ("target".data, "_blank".data)] =
    [("href".data, "https://x.com".data), ("target".data, "_blank".data),
     ("rel".data, "noopener noreferrer".data)] := by decide

example :
    ensureSafeLinkAttrs "a".data
      [("target".data, "_blank".data), ("rel".data, "foo  noopener".data)] =
    [("target".data, "_blank".data), ("rel".data, "foo noopener noreferrer".data)] := by
  decide

example :
    sanitizeAttrs "p".data
      [("style".data, "color:red".data), ("data-x".data, "1".data), ("title".data, "ok".data)] =
    [("title".data, "ok".data)] := by decide

example :
    sanitizeAttrs "img".data
      [("src".data, "javascript:alert(1)".data), ("alt".data, "x".data)] =
    [("alt".data, "x".data)] := by decide

/-! ### The DOM tree model.

An element node carries the identity of the underlying DOM node (`id`),
its raw tag name, its ordered attribute list and its children; a text
node carries its identity and contents.  Children form a `NodeList`
(a mutual inductive rather than `List Node`, so that every tree
traversal is structurally recursive and kernel-computable). -/

mutual
inductive Node where
  | text (id : Nat) (s : Str)
  | elem (id : Nat) (tag : Str) (attrs : List (Str × Str)) (children : NodeList)
inductive NodeList where
  | nil
  | cons (head : Node) (tail : NodeList)
end

mutual
def beqNode : Node → Node → Bool
  | .text i s, .text j t => decide (i = j) && decide (s = t)
  | .elem i tg a cs, .elem j th b ds =>
    decide (i = j) && decide (tg = th) && decide (a = b) && beqForest cs ds
  | _, _ => false
def beqForest : NodeList → NodeList → Bool
  | .nil, .nil => true
  | .cons a as, .cons b bs => beqNode a b && beqForest as bs
  | _, _ => false
end

mutual
theorem beqNode_iff : ∀ a b : Node, beqNode a b = true ↔ a = b
  | .text _ _, .text _ _ => by simp [beqNode]
  | .text _ _, .elem .. => by simp [beqNode]
  | .elem .., .text _ _ => by simp [beqNode]
  | .elem _ _ _ cs, .elem _ _ _ ds => by
    simp [beqNode, beqForest_iff cs ds]
    tauto
theorem beqForest_iff : ∀ a b : NodeList, beqForest a b = true ↔ a = b
  | .nil, .nil => by simp [beqForest]
  | .nil, .cons .. => by simp [beqForest]
  | .cons .., .nil => by simp [beqForest]
  | .cons a as, .cons b bs => by
    simp [beqForest, beqNode_iff a b, beqForest_iff as bs]
end

instance : DecidableEq Node := fun a b => decidable_of_iff _ (beqNode_iff a b)
instance : DecidableEq NodeList := fun a b => decidable_of_iff _ (beqForest_iff a b)

def NodeList.append : NodeList → NodeList → NodeList
  | .nil, ys => ys
  | .cons x xs, ys => .cons x (NodeList.append xs ys)

instance : Append NodeList := ⟨NodeList.append⟩

/-- Literal notation helper: builds a `NodeList` from a `List Node`. -/
def NL : List Node → NodeList
  | [] => .nil
  | n :: rest => .cons n (NL rest)

theorem NodeList.nil_append (ys : NodeList) : NodeList.nil ++ ys = ys := rfl

theorem NodeList.cons_append (x : Node) (xs ys : NodeList) :
    NodeList.cons x xs ++ ys = NodeList.cons x (xs ++ ys) := rfl

theorem forestIndList {Q : NodeList → Prop} (hn : Q .nil)
    (hc : ∀ n rest, Q rest → Q (.cons n rest)) : ∀ F, Q F
  | .nil => hn
  | .cons n rest => hc n rest (forestIndList hn hc rest)

mutual
theorem nodeInd {P : Node → Prop} {Q : NodeList → Prop}
    (ht : ∀ i s, P (.text i s)) (he : ∀ i t a cs, Q cs → P (.elem i t a cs))
    (hn : Q .nil) (hc : ∀ n rest, P n → Q rest → Q (.cons n rest)) : ∀ n : Node, P n
  | .text i s => ht i s
  | .elem i t a cs => he i t a cs (forestInd ht he hn hc cs)
theorem forestInd {P : Node → Prop} {Q : NodeList → Prop}
    (ht : ∀ i s, P (.text i s)) (he : ∀ i t a cs, Q cs → P (.elem i t a cs))
    (hn : Q .nil) (hc : ∀ n rest, P n → Q rest → Q (.cons n rest)) : ∀ F : NodeList, Q F
  | .nil => hn
  | .cons n rest => hc n rest (nodeInd ht he hn hc n) (forestInd ht he hn hc rest)
end

theorem NodeList.append_nil (xs : NodeList) : xs ++ NodeList.nil = xs := by
  induction xs using forestIndList with
  | hn => rfl
  | hc x xs ih => rw [NodeList.cons_append, ih]

theorem NodeList.append_assoc (xs ys zs : NodeList) :
    xs ++ ys ++ zs = xs ++ (ys ++ zs) := by
  induction xs using forestIndList with
  | hn => rfl
  | hc x xs ih => rw [NodeList.cons_append, NodeList.cons_append, NodeList.cons_append, ih]

/-! Identities occurring in a tree: `elemIds` lists the ids of the
element nodes in document (pre-)order — this is the snapshot
`querySelectorAll("*")` produces — and `allIds` additionally lists the
text-node ids. -/

mutual
def nodeElemIds : Node → List Nat
  | .text _ _ => []
  | .elem i _ _ cs => i :: forestElemIds cs
def forestElemIds : NodeList → List Nat
  | .nil => []
  | .cons n rest => nodeElemIds n ++ forestElemIds rest
end

mutual
def nodeAllIds : Node → List Nat
  | .text i _ => [i]
  | .elem i _ _ cs => i :: forestAllIds cs
def forestAllIds : NodeList → List Nat
  | .nil => []
  | .cons n rest => nodeAllIds n ++ forestAllIds rest
end

/-! All nodes of a forest, each with its whole subtree, in document
order (the node itself first, then its descendants). -/

mutual
def nodeSubnodes : Node → List Node
  | .text i s => [.text i s]
  | .elem i t a cs => .elem i t a cs :: forestSubnodes cs
def forestSubnodes : NodeList → List Node
  | .nil => []
  | .cons n rest => nodeSubnodes n ++ forestSubnodes rest
end

mutual
def nodeSize : Node → Nat
  | .text _ _ => 1
  | .elem _ _ _ cs => 1 + forestSize cs
def forestSize : NodeList → Nat
  | .nil => 0
  | .cons n rest => nodeSize n + forestSize rest
end

theorem forestElemIds_append (a b : NodeList) :
    forestElemIds (a ++ b) = forestElemIds a ++ forestElemIds b := by
  induction a using forestIndList with
  | hn => rfl
  | hc n rest ih =>
    rw [NodeList.cons_append]
    simp [forestElemIds, ih]

theorem forestAllIds_append (a b : NodeList) :
    forestAllIds (a ++ b) = forestAllIds a ++ forestAllIds b := by
  induction a using forestIndList with
  | hn => rfl
  | hc n rest ih =>
    rw [NodeList.cons_append]
    simp [forestAllIds, ih]

theorem forestSubnodes_append (a b : NodeList) :
    forestSubnodes (a ++ b) = forestSubnodes a ++ forestSubnodes b := by
  induction a using forestIndList with
  | hn => rfl
  | hc n rest ih =>
    rw [NodeList.cons_append]
    simp [forestSubnodes, ih]

theorem forestSize_append (a b : NodeList) :
    forestSize (a ++ b) = forestSize a + forestSize b := by
  induction a using forestIndList with
  | hn => simp [forestSize, NodeList.nil_append]
  | hc n rest ih =>
    rw [NodeList.cons_append]
    simp [forestSize, ih]
    omega

/-- The element ids are those ids of `allIds` carried by elements; in
particular they form a sublist, so distinctness of all ids gives
distinctness of the snapshot. -/
theorem forestElemIds_sublist_allIds (F : NodeList) :
    List.Sublist (forestElemIds F) (forestAllIds F) := by
  refine forestInd (P := fun n => List.Sublist (nodeElemIds n) (nodeAllIds n))
    (Q := fun F => List.Sublist (forestElemIds F) (forestAllIds F)) ?_ ?_ ?_ ?_ F
  · intro i s
    simp [nodeElemIds, nodeAllIds]
  · intro i t a cs ih
    simpa [nodeElemIds, nodeAllIds] using ih.cons₂ i
  · simp [forestElemIds, forestAllIds]
  · intro n rest ih1 ih2
    simpa [forestElemIds, forestAllIds] using ih1.append ih2

/-! ### Element classifier and tree walker.

`sanitizeElement` (lines 86-121) acts on a node of the document through
the DOM mutation interface.  Its effect on the tree is local: the node's
slot in its parent's child list is replaced (by nothing for a drop, by
the children for an unwrap, by the attribute-sanitized element for a
keep), and removed subtrees become detached roots.  A node that has no
parent (a detached root) behaves differently: `el.remove()` is a no-op
there, so drop and unwrap leave it unchanged (`classifyRoot`). -/

def single (n : Node) : NodeList := .cons n .nil

/-- Effect of `sanitizeElement` on an element that has a parent: the
forest replacing the element at its position, and the roots it
detaches (the dropped subtree, or the emptied unwrapped element). -/
def classify (i : Nat) (tag : Str) (attrs : List (Str × Str)) (cs : NodeList) :
    NodeList × List Node :=
  if lowerStr tag ∈ ALWAYS_DROP then (.nil, [.elem i tag attrs cs])
  else if lowerStr tag ∉ SAFE_ELEMENTS then (cs, [.elem i tag attrs .nil])
  else
    (single (.elem i tag
      (ensureSafeLinkAttrs tag (sanitizeAttrs (lowerStr tag) attrs)) cs), [])

/-- Effect of `sanitizeElement` on a parentless (detached root) node:
`el.remove()` does nothing there, so only the keep branch (attribute
loop and link hardener) changes the node. -/
def classifyRoot : Node → Node
  | .text i s => .text i s
  | .elem i tag attrs cs =>
    if lowerStr tag ∈ ALWAYS_DROP then .elem i tag attrs cs
    else if lowerStr tag ∉ SAFE_ELEMENTS then .elem i tag attrs cs
    else .elem i tag (ensureSafeLinkAttrs tag (sanitizeAttrs (lowerStr tag) attrs)) cs

/-! Applying `sanitizeElement` to the node with identity `i` inside a
forest whose members all have parents: locate the node (by identity,
the model's rendering of JavaScript's direct object reference) and
rewrite its slot. -/

mutual
def stepNode (i : Nat) : Node → NodeList × List Node
  | .text tid s => (single (.text tid s), [])
  | .elem id tag attrs cs =>
    if id = i then classify id tag attrs cs
    else
      let r := stepForest i cs
      (single (.elem id tag attrs r.1), r.2)
def stepForest (i : Nat) : NodeList → NodeList × List Node
  | .nil => (.nil, [])
  | .cons n rest =>
    if i ∈ nodeElemIds n then
      let r := stepNode i n
      (r.1 ++ rest, r.2)
    else
      let r := stepForest i rest
      (.cons n r.1, r.2)
end

/-- Applying `sanitizeElement` to the node with identity `i` when it sits
in a detached tree: the root itself has no parent (`classifyRoot`),
deeper nodes have one (`stepForest`); subtrees removed there become new
detached roots. -/
def stepDetNode (i : Nat) (n : Node) : Node × List Node :=
  match n with
  | .text tid s => (.text tid s, [])
  | .elem id tag attrs cs =>
    if id = i then (classifyRoot (.elem id tag attrs cs), [])
    else
      let r := stepForest i cs
      (.elem id tag attrs r.1, r.2)

def stepDet (i : Nat) : List Node → List Node
  | [] => []
  | n :: rest =>
    if i ∈ nodeElemIds n then
      let r := stepDetNode i n
      r.1 :: (r.2 ++ rest)
    else n :: stepDet i rest

/-- The mutable document state: the live tree under `body`, and the
roots of the subtrees detached from it. -/
structure DomState where
  live : NodeList
  det : List Node
deriving DecidableEq

/-- One walker iteration: `sanitizeElement(node)` for the snapshot entry
with identity `i`, wherever that node now lives. -/
def stepState (st : DomState) (i : Nat) : DomState :=
  if i ∈ forestElemIds st.live then
    let r := stepForest i st.live
    { live := r.1, det := st.det ++ r.2 }
  else
    { live := st.live, det := stepDet i st.det }

/-- `walkAndSanitize` (lines 123-127): snapshot the elements reachable
from the root in document order (`Array.from(root.querySelectorAll("*"))`),
then apply `sanitizeElement` to each snapshot entry in order. -/
def walkAndSanitize (root : NodeList) : DomState :=
  (forestElemIds root).foldl stepState { live := root, det := [] }

/-- The sanitized tree: what serializing `body.innerHTML` reads. -/
def sanitizeWalk (root : NodeList) : NodeList := (walkAndSanitize root).live

example :
    sanitizeWalk (NL [.elem 0 "p".data []
        (NL [.text 1 "hi".data,
             .elem 2 "script".data [] (NL [.text 3 "alert(1)".data])])]) =
      NL [.elem 0 "p".data [] (NL [.text 1 "hi".data])] := by decide

example :
    sanitizeWalk (NL [.elem 0 "custom".data []
        (NL [.text 1 "hello".data,
             .elem 2 "b".data [] (NL [.text 3 "world".data])])]) =
      NL [.text 1 "hello".data, .elem 2 "b".data [] (NL [.text 3 "world".data])] := by decide

example :
    sanitizeWalk (NL [.elem 0 "a".data [("href".data, "javascript:alert(1)".data)]
        (NL [.text 1 "x".data])]) =
      NL [.elem 0 "a".data [] (NL [.text 1 "x".data])] := by decide

example :
    sanitizeWalk (NL [.elem 0 "a".data
        [("href".data, "https://x.com".data), ("target".data, "_blank".data)]
        (NL [.text 1 "x".data])]) =
      NL [.elem 0 "a".data
        [("href".data, "https://x.com".data), ("target".data, "_blank".data),
         ("rel".data, "noopener noreferrer".data)] (NL [.text 1 "x".data])] := by decide

example :
    sanitizeWalk (NL [.elem 0 "img".data
        [("src".data, "x".data), ("onerror".data, "alert(1)".data)] .nil]) =
      NL [.elem 0 "img".data [("src".data, "x".data)] .nil] := by decide

example :
    sanitizeWalk (NL [.elem 0 "p".data []
        (NL [.text 1 "ok".data,
             .elem 2 "svg".data [("onload".data, "x()".data)] .nil])]) =
      NL [.elem 0 "p".data [] (NL [.text 1 "ok".data])] := by decide

/-! ### The recursive description of the walk.

`pureSanitize` computes, in one recursive pass, the live tree the
snapshot walk leaves behind; the simulation theorem below proves the
walker equal to it.  Claims about the output are proved on this
description. -/

def pureSanitize : NodeList → NodeList
  | .nil => .nil
  | .cons (.text i s) rest => .cons (.text i s) (pureSanitize rest)
  | .cons (.elem i tag attrs cs) rest =>
    if lowerStr tag ∈ ALWAYS_DROP then pureSanitize rest
    else if lowerStr tag ∉ SAFE_ELEMENTS then pureSanitize (cs ++ rest)
    else
      .cons (.elem i tag (ensureSafeLinkAttrs tag (sanitizeAttrs (lowerStr tag) attrs))
        (pureSanitize cs)) (pureSanitize rest)
termination_by F => forestSize F
decreasing_by
  all_goals simp [forestSize, nodeSize, forestSize_append]
  all_goals omega

/-- The walker's effect on the live tree only; `stepState_live` shows the
live component of the state evolves autonomously through it. -/
def stepLiveOnly (l : NodeList) (i : Nat) : NodeList :=
  if i ∈ forestElemIds l then (stepForest i l).1 else l

def runL (ids : List Nat) (l : NodeList) : NodeList := ids.foldl stepLiveOnly l

theorem stepState_live (st : DomState) (i : Nat) :
    (stepState st i).live = stepLiveOnly st.live i := by
  unfold stepState stepLiveOnly
  by_cases h : i ∈ forestElemIds st.live <;> simp [h]

theorem foldl_stepState_live (ids : List Nat) (st : DomState) :
    (ids.foldl stepState st).live = runL ids st.live := by
  induction ids generalizing st with
  | nil => rfl
  | cons i ids ih =>
    rw [List.foldl_cons, ih, stepState_live]
    rfl

theorem sanitizeWalk_eq_runL (root : NodeList) :
    sanitizeWalk root = runL (forestElemIds root) root := by
  unfold sanitizeWalk walkAndSanitize
  rw [foldl_stepState_live]

theorem runL_append (xs ys : List Nat) (l : NodeList) :
    runL (xs ++ ys) l = runL ys (runL xs l) := by
  unfold runL
  rw [List.foldl_append]

theorem stepLiveOnly_absent (l : NodeList) (i : Nat) (h : i ∉ forestElemIds l) :
    stepLiveOnly l i = l := by
  unfold stepLiveOnly
  simp [h]

theorem runL_absent (ids : List Nat) (l : NodeList) (h : ∀ i ∈ ids, i ∉ forestElemIds l) :
    runL ids l = l := by
  induction ids with
  | nil => rfl
  | cons i ids ih =>
    rw [runL, List.foldl_cons, stepLiveOnly_absent l i (h i (by simp))]
    exact ih fun j hj => h j (by simp [hj])

/-! ### One-hole forest contexts.

`Ctx.plug C F` places the forest `F` at a fixed position of a larger
tree: directly among the top-level siblings (`top`), or inside the child
list of an element that itself sits in a context (`under`).  The
simulation proof walks the snapshot through such contexts. -/

inductive Ctx where
  | top (pre post : NodeList)
  | under (parent : Ctx) (pre : NodeList) (id : Nat) (tag : Str)
      (attrs : List (Str × Str)) (post : NodeList)

def Ctx.plug : Ctx → NodeList → NodeList
  | .top pre post, F => pre ++ F ++ post
  | .under p pre id tag attrs post, F =>
    Ctx.plug p (single (.elem id tag attrs (pre ++ F ++ post)))

/-- The element ids of the context's skeleton: everything outside the hole. -/
def Ctx.ids : Ctx → List Nat
  | .top pre post => forestElemIds pre ++ forestElemIds post
  | .under p pre id _ _ post =>
    Ctx.ids p ++ forestElemIds pre ++ id :: forestElemIds post

def Ctx.extendPost : Ctx → NodeList → Ctx
  | .top pre post, G => .top pre (G ++ post)
  | .under p pre id tag attrs post, G => .under p pre id tag attrs (G ++ post)

def Ctx.extendPre : Ctx → NodeList → Ctx
  | .top pre post, G => .top (pre ++ G) post
  | .under p pre id tag attrs post, G => .under p (pre ++ G) id tag attrs post

theorem plug_extendPost (C : Ctx) (G F : NodeList) :
    (Ctx.extendPost C G).plug F = C.plug (F ++ G) := by
  cases C <;> simp [Ctx.extendPost, Ctx.plug, NodeList.append_assoc]

theorem plug_extendPre (C : Ctx) (G F : NodeList) :
    (Ctx.extendPre C G).plug F = C.plug (G ++ F) := by
  cases C <;> simp [Ctx.extendPre, Ctx.plug, NodeList.append_assoc]

theorem mem_ids_extendPost (C : Ctx) (G : NodeList) (i : Nat) :
    i ∈ (Ctx.extendPost C G).ids ↔ i ∈ C.ids ∨ i ∈ forestElemIds G := by
  cases C <;> simp [Ctx.extendPost, Ctx.ids, forestElemIds_append] <;> tauto

theorem mem_ids_extendPre (C : Ctx) (G : NodeList) (i : Nat) :
    i ∈ (Ctx.extendPre C G).ids ↔ i ∈ C.ids ∨ i ∈ forestElemIds G := by
  cases C <;> simp [Ctx.extendPre, Ctx.ids, forestElemIds_append] <;> tauto

theorem mem_elemIds_plug (C : Ctx) (F : NodeList) (i : Nat) :
    i ∈ forestElemIds (C.plug F) ↔ i ∈ C.ids ∨ i ∈ forestElemIds F := by
  induction C generalizing F with
  | top pre post =>
    simp [Ctx.plug, Ctx.ids, forestElemIds_append]
    tauto
  | under p pre id tag attrs post ih =>
    simp [Ctx.plug, Ctx.ids, ih, single, forestElemIds, nodeElemIds, forestElemIds_append]
    tauto

/-! Locating the target node of a walker step inside appends and
contexts. -/

theorem stepForest_append_absent (i : Nat) (G H : NodeList) (h : i ∉ forestElemIds G) :
    stepForest i (G ++ H) = (G ++ (stepForest i H).1, (stepForest i H).2) := by
  induction G using forestIndList with
  | hn => simp [NodeList.nil_append]
  | hc n rest ih =>
    have hn : i ∉ nodeElemIds n := fun hm => h (by simp [forestElemIds, hm])
    have hrest : i ∉ forestElemIds rest := fun hm => h (by simp [forestElemIds, hm])
    rw [NodeList.cons_append]
    simp [stepForest, hn, ih hrest, NodeList.cons_append]

theorem stepForest_append_found (i : Nat) (F H : NodeList) (h : i ∈ forestElemIds F) :
    stepForest i (F ++ H) = ((stepForest i F).1 ++ H, (stepForest i F).2) := by
  induction F using forestIndList with
  | hn => simp [forestElemIds] at h
  | hc n rest ih =>
    by_cases hm : i ∈ nodeElemIds n
    · rw [NodeList.cons_append]
      simp [stepForest, hm, NodeList.append_assoc]
    · have hrest : i ∈ forestElemIds rest := by
        rcases (by simpa [forestElemIds] using h) with h1 | h1
        · exact absurd h1 hm
        · exact h1
      rw [NodeList.cons_append]
      simp [stepForest, hm, ih hrest, NodeList.cons_append]

theorem stepForest_plug (C : Ctx) (F : NodeList) (i : Nat)
    (hF : i ∈ forestElemIds F) (hC : i ∉ Ctx.ids C) :
    stepForest i (C.plug F) = (C.plug (stepForest i F).1, (stepForest i F).2) := by
  induction C generalizing F with
  | top pre post =>
    have hpre : i ∉ forestElemIds pre := fun hm => hC (by simp [Ctx.ids, hm])
    simp only [Ctx.plug, NodeList.append_assoc]
    rw [stepForest_append_absent i pre _ hpre, stepForest_append_found i F post hF,
      ← NodeList.append_assoc]
  | under p pre id tag attrs post ih =>
    have hp : i ∉ Ctx.ids p := fun hm => hC (by simp [Ctx.ids, hm])
    have hpre : i ∉ forestElemIds pre := fun hm => hC (by simp [Ctx.ids, hm])
    have hid : id ≠ i := fun hm => hC (by simp [Ctx.ids, hm])
    have hsingle : i ∈ forestElemIds (single (.elem id tag attrs (pre ++ F ++ post))) := by
      simp [single, forestElemIds, nodeElemIds, forestElemIds_append]
      tauto
    simp only [Ctx.plug]
    rw [ih _ hsingle hp]
    have hinner :
        stepForest i (pre ++ F ++ post) =
          (pre ++ (stepForest i F).1 ++ post, (stepForest i F).2) := by
      rw [NodeList.append_assoc, stepForest_append_absent i pre _ hpre,
        stepForest_append_found i F post hF, ← NodeList.append_assoc]
    have hin : i ∈ nodeElemIds (.elem id tag attrs (pre ++ F ++ post)) := by
      simp [nodeElemIds, forestElemIds_append]
      tauto
    have hstep :
        stepForest i (single (.elem id tag attrs (pre ++ F ++ post))) =
          (single (.elem id tag attrs (pre ++ (stepForest i F).1 ++ post)),
            (stepForest i F).2) := by
      simp [single, stepForest, hin, stepNode, hid, hinner, NodeList.append_nil]
    rw [hstep]

/-- The first walker step on the head element of the hole's content:
`sanitizeElement` rewrites exactly that element's slot. -/
theorem stepLiveOnly_plug_cons (C : Ctx) (i : Nat) (tag : Str)
    (attrs : List (Str × Str)) (cs F' : NodeList) (hC : i ∉ Ctx.ids C) :
    stepLiveOnly (C.plug (.cons (.elem i tag attrs cs) F')) i =
      C.plug ((classify i tag attrs cs).1 ++ F') := by
  have hF : i ∈ forestElemIds (NodeList.cons (.elem i tag attrs cs) F') := by
    simp [forestElemIds, nodeElemIds]
  have hmem : i ∈ forestElemIds (C.plug (.cons (.elem i tag attrs cs) F')) := by
    rw [mem_elemIds_plug]
    exact Or.inr hF
  have hhead :
      stepForest i (NodeList.cons (.elem i tag attrs cs) F') =
        ((classify i tag attrs cs).1 ++ F', (classify i tag attrs cs).2) := by
    simp [stepForest, nodeElemIds, stepNode]
  unfold stepLiveOnly
  rw [if_pos hmem, stepForest_plug C _ i hF hC, hhead]

/-- The element ids of the sanitized output form a sublist of the input's
(sanitization never invents elements or reorders the survivors). -/
theorem elemIds_pureSanitize :
    ∀ F : NodeList, List.Sublist (forestElemIds (pureSanitize F)) (forestElemIds F)
  | .nil => by simp [pureSanitize]
  | .cons (.text i s) rest => by
    simpa [pureSanitize, forestElemIds, nodeElemIds] using elemIds_pureSanitize rest
  | .cons (.elem i tag attrs cs) rest => by
    by_cases h1 : lowerStr tag ∈ ALWAYS_DROP
    · have ih := elemIds_pureSanitize rest
      simp only [pureSanitize, if_pos h1]
      refine ih.trans ?_
      simp [forestElemIds, nodeElemIds]
    · by_cases h2 : lowerStr tag ∈ SAFE_ELEMENTS
      · have ihc := elemIds_pureSanitize cs
        have ihr := elemIds_pureSanitize rest
        simp only [pureSanitize, if_neg h1, if_neg (not_not_intro h2)]
        simpa [forestElemIds, nodeElemIds] using (ihc.append ihr).cons₂ i
      · have ih := elemIds_pureSanitize (cs ++ rest)
        simp only [pureSanitize, if_neg h1, if_pos h2]
        refine ih.trans ?_
        simp [forestElemIds, nodeElemIds, forestElemIds_append]
termination_by F => forestSize F
decreasing_by
  all_goals simp [forestSize, nodeSize, forestSize_append]
  all_goals omega


/-- Simulation, generalized over a context: running the walker steps for
the snapshot of the hole's content, on a tree with that content plugged
in, rewrites the hole to the recursive pass's output.  Distinct ids
render the by-identity lookup unambiguous. -/
theorem runL_plug :
    ∀ (F : NodeList) (C : Ctx), (forestElemIds F).Nodup →
      (∀ i ∈ forestElemIds F, i ∉ Ctx.ids C) →
      runL (forestElemIds F) (C.plug F) = C.plug (pureSanitize F)
  | .nil, C, _, _ => by simp [forestElemIds, runL, pureSanitize]
  | .cons (.text i s) rest, C, hnd, hdisj => by
    have hplug : C.plug (.cons (.text i s) rest) =
        (Ctx.extendPre C (single (.text i s))).plug rest := by
      rw [plug_extendPre]
      rfl
    have hids : forestElemIds (NodeList.cons (.text i s) rest) = forestElemIds rest := by
      simp [forestElemIds, nodeElemIds]
    have hnd2 : (forestElemIds rest).Nodup := by
      rw [hids] at hnd
      exact hnd
    have hdisj2 : ∀ j ∈ forestElemIds rest, j ∉ (Ctx.extendPre C (single (.text i s))).ids := by
      intro j hj hmem
      rcases (mem_ids_extendPre C _ j).mp hmem with h | h
      · exact hdisj j (by rw [hids]; exact hj) h
      · simp [single, forestElemIds, nodeElemIds] at h
    have hrec := runL_plug rest (Ctx.extendPre C (single (.text i s))) hnd2 hdisj2
    rw [hids, hplug, hrec, plug_extendPre]
    simp [pureSanitize]
    rfl
  | .cons (.elem i tag attrs cs) rest, C, hnd, hdisj => by
    have hids : forestElemIds (NodeList.cons (.elem i tag attrs cs) rest) =
        i :: (forestElemIds cs ++ forestElemIds rest) := by
      simp [forestElemIds, nodeElemIds]
    have hiC : i ∉ Ctx.ids C := hdisj i (by rw [hids]; simp)
    have hnotcs : i ∉ forestElemIds cs := by
      rw [hids] at hnd
      intro h
      exact (List.nodup_cons.mp hnd).1 (by simp [h])
    have hnotrest : i ∉ forestElemIds rest := by
      rw [hids] at hnd
      intro h
      exact (List.nodup_cons.mp hnd).1 (by simp [h])
    have hndtail : (forestElemIds cs ++ forestElemIds rest).Nodup := by
      rw [hids] at hnd
      exact (List.nodup_cons.mp hnd).2
    have hndcs : (forestElemIds cs).Nodup := (List.nodup_append.mp hndtail).1
    have hndrest : (forestElemIds rest).Nodup := (List.nodup_append.mp hndtail).2.1
    have hcsrest : ∀ j ∈ forestElemIds cs, j ∉ forestElemIds rest := by
      intro j hj
      exact (List.nodup_append.mp hndtail).2.2 hj
    have hdisjcs : ∀ j ∈ forestElemIds cs, j ∉ Ctx.ids C := by
      intro j hj
      exact hdisj j (by rw [hids]; simp [hj])
    have hdisjrest : ∀ j ∈ forestElemIds rest, j ∉ Ctx.ids C := by
      intro j hj
      exact hdisj j (by rw [hids]; simp [hj])
    rw [hids]
    have hstep := stepLiveOnly_plug_cons C i tag attrs cs rest hiC
    have hrun : runL (i :: (forestElemIds cs ++ forestElemIds rest))
        (C.plug (.cons (.elem i tag attrs cs) rest)) =
        runL (forestElemIds cs ++ forestElemIds rest)
          (C.plug ((classify i tag attrs cs).1 ++ rest)) := by
      unfold runL
      rw [List.foldl_cons]
      rw [show stepLiveOnly (C.plug (.cons (.elem i tag attrs cs) rest)) i =
        C.plug ((classify i tag attrs cs).1 ++ rest) from hstep]
    rw [hrun]
    by_cases h1 : lowerStr tag ∈ ALWAYS_DROP
    · -- drop: the subtree is detached, its snapshot entries are no-ops
      have hcls : (classify i tag attrs cs).1 = .nil := by
        simp [classify, h1]
      rw [hcls, NodeList.nil_append, runL_append]
      have habsent : ∀ j ∈ forestElemIds cs, j ∉ forestElemIds (C.plug rest) := by
        intro j hj hmem
        rcases (mem_elemIds_plug C rest j).mp hmem with h | h
        · exact hdisjcs j hj h
        · exact hcsrest j hj h
      rw [runL_absent _ _ habsent]
      have hrec := runL_plug rest C hndrest hdisjrest
      rw [hrec]
      simp [pureSanitize, h1]
    · by_cases h2 : lowerStr tag ∈ SAFE_ELEMENTS
      · -- keep: sanitize attributes in place, then children, then siblings
        have hcls : (classify i tag attrs cs).1 =
            single (.elem i tag (ensureSafeLinkAttrs tag (sanitizeAttrs (lowerStr tag) attrs)) cs) := by
          simp [classify, h1, h2]
        set attrs2 := ensureSafeLinkAttrs tag (sanitizeAttrs (lowerStr tag) attrs) with ha2
        have hC2 : ∀ X : NodeList,
            (Ctx.under (Ctx.extendPost C rest) .nil i tag attrs2 .nil).plug X =
              C.plug (single (.elem i tag attrs2 X) ++ rest) := by
          intro X
          rw [Ctx.plug, plug_extendPost]
          simp [NodeList.append_nil, NodeList.nil_append]
        have hdisj3 : ∀ j ∈ forestElemIds cs,
            j ∉ (Ctx.under (Ctx.extendPost C rest) .nil i tag attrs2 .nil).ids := by
          intro j hj hmem
          have hx1 := hdisjcs j hj
          have hx2 := hcsrest j hj
          have hx3 : ¬ j = i := fun h => hnotcs (h ▸ hj)
          simp [Ctx.ids, mem_ids_extendPost, forestElemIds, nodeElemIds,
            hx1, hx2, hx3] at hmem
        have hrec1 := runL_plug cs (Ctx.under (Ctx.extendPost C rest) .nil i tag attrs2 .nil)
          hndcs hdisj3
        rw [runL_append, hcls, ← hC2 cs, hrec1, hC2 (pureSanitize cs)]
        have e2 : C.plug (single (.elem i tag attrs2 (pureSanitize cs)) ++ rest) =
            (Ctx.extendPre C (single (.elem i tag attrs2 (pureSanitize cs)))).plug rest := by
          rw [plug_extendPre]
        rw [e2]
        have hdisj4 : ∀ j ∈ forestElemIds rest,
            j ∉ (Ctx.extendPre C (single (.elem i tag attrs2 (pureSanitize cs)))).ids := by
          intro j hj hmem
          have hx1 := hdisjrest j hj
          have hx2 : ¬ j = i := fun h => hnotrest (h ▸ hj)
          have hx3 : j ∉ forestElemIds (pureSanitize cs) :=
            fun h => hcsrest j ((elemIds_pureSanitize cs).subset h) hj
          simp [mem_ids_extendPre, single, forestElemIds, nodeElemIds,
            hx1, hx2, hx3] at hmem
        have hrec2 := runL_plug rest
          (Ctx.extendPre C (single (.elem i tag attrs2 (pureSanitize cs)))) hndrest hdisj4
        rw [hrec2, plug_extendPre]
        simp [pureSanitize, h1, h2, ha2]
        rfl
      · -- unwrap: the children take the element's place and are walked later
        have hcls : (classify i tag attrs cs).1 = cs := by
          simp [classify, h1, h2]
        rw [hcls]
        have hnd5 : (forestElemIds (cs ++ rest)).Nodup := by
          rw [forestElemIds_append]
          exact hndtail
        have hdisj5 : ∀ j ∈ forestElemIds (cs ++ rest), j ∉ Ctx.ids C := by
          intro j hj
          rw [forestElemIds_append] at hj
          rcases List.mem_append.mp hj with h | h
          · exact hdisjcs j h
          · exact hdisjrest j h
        have hrec := runL_plug (cs ++ rest) C hnd5 hdisj5
        rw [forestElemIds_append] at hrec
        rw [hrec]
        simp [pureSanitize, h1, h2]
termination_by F => forestSize F
decreasing_by
  all_goals simp [forestSize, nodeSize, forestSize_append]
  all_goals omega

/-- The walker equals the recursive pass on any tree with distinct
element identities. -/
theorem sanitizeWalk_eq_pure (root : NodeList) (h : (forestElemIds root).Nodup) :
    sanitizeWalk root = pureSanitize root := by
  rw [sanitizeWalk_eq_runL]
  have hplug : (Ctx.top .nil .nil).plug root = root := by
    simp [Ctx.plug, NodeList.nil_append, NodeList.append_nil]
  have := runL_plug root (Ctx.top .nil .nil) h (by simp [Ctx.ids, forestElemIds])
  rw [hplug] at this
  rw [this]
  simp [Ctx.plug, NodeList.nil_append, NodeList.append_nil]

/-! ### Characterizing the attribute loop. -/

/-- The per-attribute decision of the loop in `sanitizeElement`: keep the
attribute iff its (lowercased) name is allowed and, for `href`/`src`
names, the value is a safe URL. -/
def attrPass (tag : Str) (a : Str × Str) : Bool :=
  isAllowedAttr tag (lowerStr a.1) &&
    (!(decide (lowerStr a.1 = "href".data) || decide (lowerStr a.1 = "src".data)) ||
      isSafeUrl (some a.2))

theorem attrStep_eq (tag : Str) (cur : List (Str × Str)) (a : Str × Str) :
    attrStep tag cur a = if attrPass tag a then cur else removeAttr cur a.1 := by
  unfold attrStep attrPass
  by_cases h1 : isAllowedAttr tag (lowerStr a.1) = true
  · by_cases h2 : isSafeUrl (some a.2) = true
    · simp [h1, h2]
    · by_cases h3 : lowerStr a.1 = "href".data ∨ lowerStr a.1 = "src".data
      · simp [h1, h2, h3]
        rcases h3 with h | h <;> simp [h]
      · push_neg at h3
        simp [h1, h2, h3.1, h3.2]
  · simp [h1]

theorem foldl_attrStep (tag : Str) (S A : List (Str × Str)) :
    S.foldl (attrStep tag) A =
      A.filter (fun a => S.all (fun b => decide (¬ b.1 = a.1) || attrPass tag b)) := by
  induction S generalizing A with
  | nil => simp
  | cons b S ih =>
    rw [List.foldl_cons, ih, attrStep_eq]
    by_cases hb : attrPass tag b = true
    · rw [if_pos hb]
      refine List.filter_congr ?_
      intro a _
      simp [hb]
    · rw [if_neg hb, removeAttr, List.filter_filter]
      refine List.filter_congr ?_
      intro a _
      have hb2 : attrPass tag b = false := by
        cases hP : attrPass tag b
        · rfl
        · exact absurd hP hb
      rw [List.all_cons, hb2, Bool.or_false]
      have hdec : decide (¬ b.1 = a.1) = ! decide (a.1 = b.1) := by
        by_cases h : a.1 = b.1
        · simp [h]
        · have h2 : ¬ b.1 = a.1 := fun hh => h hh.symm
          simp [h, h2]
      rw [hdec, Bool.and_comm]

/-- Closed form of the attribute loop: an attribute survives iff every
snapshot entry bearing its name passes the decision (removal is by
name). -/
theorem sanitizeAttrs_eq_filter_all (tag : Str) (attrs : List (Str × Str)) :
    sanitizeAttrs tag attrs =
      attrs.filter (fun a => attrs.all (fun b => decide (¬ b.1 = a.1) || attrPass tag b)) := by
  unfold sanitizeAttrs
  exact foldl_attrStep tag attrs attrs

/-- Every attribute surviving the loop was present before and passes the
per-attribute decision. -/
theorem mem_sanitizeAttrs (tag : Str) (attrs : List (Str × Str)) (a : Str × Str)
    (h : a ∈ sanitizeAttrs tag attrs) : a ∈ attrs ∧ attrPass tag a = true := by
  rw [sanitizeAttrs_eq_filter_all] at h
  have hmem := List.mem_of_mem_filter h
  have hcond := List.of_mem_filter h
  refine ⟨hmem, ?_⟩
  have := (List.all_eq_true.mp hcond) a hmem
  simpa using this

/-- When every attribute passes, the loop removes nothing. -/
theorem sanitizeAttrs_of_all_pass (tag : Str) (attrs : List (Str × Str))
    (h : ∀ a ∈ attrs, attrPass tag a = true) : sanitizeAttrs tag attrs = attrs := by
  rw [sanitizeAttrs_eq_filter_all]
  rw [List.filter_eq_self]
  intro a ha
  rw [List.all_eq_true]
  intro b hb
  simp [h b hb]

/-- With duplicate-free attribute names (as the HTML parser guarantees),
the loop is exactly a filter by the per-attribute decision: each
attribute is judged independently, and a failing one is removed. -/
theorem sanitizeAttrs_eq_filter (tag : Str) (attrs : List (Str × Str))
    (hnd : (attrs.map Prod.fst).Nodup) :
    sanitizeAttrs tag attrs = attrs.filter (attrPass tag) := by
  rw [sanitizeAttrs_eq_filter_all]
  refine List.filter_congr ?_
  intro a ha
  have huniq : ∀ b ∈ attrs, b.1 = a.1 → b = a := by
    intro b hb hba
    exact List.inj_on_of_nodup_map hnd hb ha hba
  by_cases hpass : attrPass tag a = true
  · have hall : attrs.all (fun b => decide (¬ b.1 = a.1) || attrPass tag b) = true := by
      rw [List.all_eq_true]
      intro b hb
      by_cases hba : b.1 = a.1
      · have hba2 := huniq b hb hba
        simp [hba2, hpass]
      · simp [hba]
    rw [hall, hpass]
  · have hpass2 : attrPass tag a = false := by
      cases hP : attrPass tag a
      · rfl
      · exact absurd hP hpass
    have hall : attrs.all (fun b => decide (¬ b.1 = a.1) || attrPass tag b) = false := by
      cases hA : attrs.all (fun b => decide (¬ b.1 = a.1) || attrPass tag b)
      · rfl
      · exfalso
        have := List.all_eq_true.mp hA a ha
        simp [hpass2] at this
    rw [hall, hpass2]

/-! ### Lowercasing, token and attribute-primitive lemmas. -/

theorem toNat_ofNat_valid (n : Nat) (h : n < 0xD800) : (Char.ofNat n).toNat = n := by
  have hv : Nat.isValidChar n := Or.inl h
  simp [Char.ofNat, hv, Char.toNat, Char.ofNatAux, UInt32.toNat, BitVec.toNat_ofNatLt]

theorem lowChar_idem (c : Char) : lowChar (lowChar c) = lowChar c := by
  unfold lowChar
  by_cases h : 65 ≤ c.toNat ∧ c.toNat ≤ 90
  · rw [if_pos h]
    have ht : (Char.ofNat (c.toNat + 32)).toNat = c.toNat + 32 :=
      toNat_ofNat_valid _ (by omega)
    rw [if_neg]
    rw [ht]
    omega
  · rw [if_neg h, if_neg h]

theorem lowerStr_idem (s : Str) : lowerStr (lowerStr s) = lowerStr s := by
  unfold lowerStr
  rw [List.map_map]
  exact List.map_congr_left fun c _ => lowChar_idem c

theorem lowerStr_append (s t : Str) : lowerStr (s ++ t) = lowerStr s ++ lowerStr t := by
  simp [lowerStr]

/-- A string made of characters fixed by `lowChar` is fixed by `lowerStr`. -/
theorem lowerStr_of_fixed (s : Str) (h : ∀ c ∈ s, lowChar c = c) : lowerStr s = s := by
  induction s with
  | nil => rfl
  | cons c rest ih =>
    have hr := ih fun x hx => h x (by simp [hx])
    simp only [lowerStr, List.map_cons] at hr ⊢
    rw [h c (by simp), hr]

/-! `getAttribute` / `setAttribute` interaction. -/

theorem getAttr_cons (a : Str × Str) (attrs : List (Str × Str)) (n : Str) :
    getAttr (a :: attrs) n = if a.1 = n then some a.2 else getAttr attrs n := by
  unfold getAttr
  rw [List.find?_cons]
  by_cases h : a.1 = n <;> simp [h]

theorem getAttr_setAttr_same (attrs : List (Str × Str)) (n v : Str) :
    getAttr (setAttr attrs n v) n = some v := by
  induction attrs with
  | nil => simp [setAttr, getAttr_cons]
  | cons a rest ih =>
    by_cases h : a.1 = n
    · simp [setAttr, h, getAttr_cons]
    · simp only [setAttr, if_neg h]
      rw [getAttr_cons, if_neg h]
      exact ih

theorem getAttr_setAttr_other (attrs : List (Str × Str)) (n v m : Str) (h : m ≠ n) :
    getAttr (setAttr attrs n v) m = getAttr attrs m := by
  induction attrs with
  | nil =>
    simp [setAttr, getAttr_cons, getAttr]
    intro he
    exact absurd he.symm h
  | cons a rest ih =>
    by_cases ha : a.1 = n
    · simp only [setAttr, if_pos ha]
      rw [getAttr_cons, getAttr_cons]
      have h1 : ¬ ((n, v).1 = m) := fun he => h (by simpa using he.symm)
      have h2 : ¬ (a.1 = m) := fun he => h (he.symm.trans ha)
      simp [h1, h2]
    · simp only [setAttr, if_neg ha]
      rw [getAttr_cons, getAttr_cons]
      by_cases hm : a.1 = m <;> simp [hm, ih]

theorem setAttr_setAttr (attrs : List (Str × Str)) (n v w : Str) :
    setAttr (setAttr attrs n v) n w = setAttr attrs n w := by
  induction attrs with
  | nil => simp [setAttr]
  | cons a rest ih =>
    by_cases h : a.1 = n
    · simp [setAttr, h]
    · simp [setAttr, h, ih]

theorem mem_setAttr (attrs : List (Str × Str)) (n v : Str) (a : Str × Str)
    (h : a ∈ setAttr attrs n v) : a ∈ attrs ∨ a = (n, v) := by
  induction attrs with
  | nil =>
    simp [setAttr] at h
    exact Or.inr h
  | cons b rest ih =>
    by_cases hb : b.1 = n
    · rw [setAttr, if_pos hb] at h
      rcases List.mem_cons.mp h with h | h
      · exact Or.inr h
      · exact Or.inl (List.mem_cons_of_mem _ h)
    · rw [setAttr, if_neg hb] at h
      rcases List.mem_cons.mp h with h | h
      · exact Or.inl (h ▸ List.mem_cons_self _ _)
      · rcases ih h with h | h
        · exact Or.inl (List.mem_cons_of_mem _ h)
        · exact Or.inr h

/-! Whitespace splitting: tokens are the maximal nonempty runs of
non-whitespace characters, so splitting a space-join of well-formed
tokens recovers them. -/

theorem splitWsAux_run (t : Str) (ht : ∀ c ∈ t, jsWs c = false) :
    ∀ (rest acc : Str), splitWsAux (t ++ rest) acc = splitWsAux rest (t.reverse ++ acc) := by
  induction t with
  | nil => simp
  | cons c t ih =>
    intro rest acc
    have hc : jsWs c = false := ht c (by simp)
    have ht2 : ∀ x ∈ t, jsWs x = false := fun x hx => ht x (by simp [hx])
    rw [List.cons_append, splitWsAux, if_neg (by simp [hc]), ih ht2]
    simp

theorem splitWs_single (t : Str) (hne : t ≠ []) (ht : ∀ c ∈ t, jsWs c = false) :
    splitWs t = [t] := by
  unfold splitWs
  have := splitWsAux_run t ht [] []
  rw [List.append_nil] at this
  rw [this, splitWsAux]
  simp [hne]

theorem splitWs_joinSpace (ts : List Str)
    (h : ∀ t ∈ ts, t ≠ [] ∧ ∀ c ∈ t, jsWs c = false) :
    splitWs (joinSpace ts) = ts := by
  induction ts with
  | nil => rfl
  | cons t ts ih =>
    cases ts with
    | nil =>
      rcases h t (by simp) with ⟨hne, hws⟩
      simp [joinSpace, splitWs_single t hne hws]
    | cons t2 ts2 =>
      rcases h t (by simp) with ⟨hne, hws⟩
      have h2 : ∀ u ∈ t2 :: ts2, u ≠ [] ∧ ∀ c ∈ u, jsWs c = false :=
        fun u hu => h u (by simp [hu])
      have hj : joinSpace (t :: t2 :: ts2) = t ++ ' ' :: joinSpace (t2 :: ts2) := rfl
      rw [hj, splitWs, splitWsAux_run t hws, splitWsAux, if_pos (by decide)]
      rw [List.append_nil, if_neg (by simp [hne]), List.reverse_reverse]
      rw [← splitWs, ih h2]

/-! Well-formedness of the hardener's tokens. -/

theorem splitWsAux_wf :
    ∀ (s acc : Str), (∀ c ∈ acc, jsWs c = false) →
      ∀ t ∈ splitWsAux s acc, t ≠ [] ∧ ∀ c ∈ t, jsWs c = false := by
  intro s
  induction s with
  | nil =>
    intro acc hacc t ht
    by_cases h : acc = []
    · simp [splitWsAux, h] at ht
    · simp [splitWsAux, h] at ht
      subst ht
      refine ⟨by simp [h], ?_⟩
      intro c hc
      exact hacc c (List.mem_reverse.mp hc)
  | cons c s ih =>
    intro acc hacc t ht
    by_cases hc : jsWs c = true
    · rw [splitWsAux, if_pos hc] at ht
      by_cases h : acc = []
      · rw [if_pos h] at ht
        exact ih [] (by simp) t ht
      · rw [if_neg h] at ht
        rcases List.mem_cons.mp ht with h2 | h2
        · subst h2
          refine ⟨by simp [h], ?_⟩
          intro x hx
          exact hacc x (List.mem_reverse.mp hx)
        · exact ih [] (by simp) t h2
    · rw [splitWsAux, if_neg hc] at ht
      refine ih (c :: acc) ?_ t ht
      intro x hx
      rcases List.mem_cons.mp hx with h2 | h2
      · subst h2
        exact Bool.eq_false_iff.mpr hc
      · exact hacc x h2

theorem splitWs_wf (s : Str) : ∀ t ∈ splitWs s, t ≠ [] ∧ ∀ c ∈ t, jsWs c = false :=
  splitWsAux_wf s [] (by simp)

theorem splitWsAux_chars :
    ∀ (s acc : Str), ∀ t ∈ splitWsAux s acc, ∀ c ∈ t, c ∈ s ∨ c ∈ acc := by
  intro s
  induction s with
  | nil =>
    intro acc t ht c hc
    by_cases h : acc = []
    · simp [splitWsAux, h] at ht
    · simp [splitWsAux, h] at ht
      subst ht
      exact Or.inr (List.mem_reverse.mp hc)
  | cons x s ih =>
    intro acc t ht c hc
    by_cases hx : jsWs x = true
    · rw [splitWsAux, if_pos hx] at ht
      by_cases h : acc = []
      · rw [if_pos h] at ht
        rcases ih [] t ht c hc with h2 | h2
        · exact Or.inl (by simp [h2])
        · simp at h2
      · rw [if_neg h] at ht
        rcases List.mem_cons.mp ht with h2 | h2
        · subst h2
          exact Or.inr (List.mem_reverse.mp hc)
        · rcases ih [] t h2 c hc with h3 | h3
          · exact Or.inl (by simp [h3])
          · simp at h3
    · rw [splitWsAux, if_neg hx] at ht
      rcases ih (x :: acc) t ht c hc with h2 | h2
      · exact Or.inl (by simp [h2])
      · rcases List.mem_cons.mp h2 with h3 | h3
        · exact Or.inl (by simp [h3])
        · exact Or.inr h3

theorem splitWs_chars (s : Str) : ∀ t ∈ splitWs s, ∀ c ∈ t, c ∈ s := by
  intro t ht c hc
  rcases splitWsAux_chars s [] t ht c hc with h | h
  · exact h
  · simp at h

/-! Insertion-ordered deduplication. -/

theorem mem_dedupAux : ∀ (ts seen : List Str) (x : Str),
    x ∈ dedupAux ts seen ↔ x ∈ ts ∧ x ∉ seen := by
  intro ts
  induction ts with
  | nil => simp [dedupAux]
  | cons t ts ih =>
    intro seen x
    by_cases h : t ∈ seen
    · rw [dedupAux, if_pos h, ih]
      constructor
      · rintro ⟨h1, h2⟩
        exact ⟨by simp [h1], h2⟩
      · rintro ⟨h1, h2⟩
        rcases List.mem_cons.mp h1 with h3 | h3
        · exact absurd (h3 ▸ h) h2
        · exact ⟨h3, h2⟩
    · rw [dedupAux, if_neg h]
      constructor
      · intro hx
        rcases List.mem_cons.mp hx with h1 | h1
        · exact ⟨by simp [h1], h1 ▸ h⟩
        · rcases (ih _ _).mp h1 with ⟨h2, h3⟩
          refine ⟨by simp [h2], fun hs => h3 (by simp [hs])⟩
      · rintro ⟨h1, h2⟩
        rcases List.mem_cons.mp h1 with h3 | h3
        · simp [h3]
        · by_cases hxt : x = t
          · simp [hxt]
          · refine List.mem_cons_of_mem _ ((ih _ _).mpr ⟨h3, ?_⟩)
            intro hs
            rcases List.mem_cons.mp hs with h4 | h4
            · exact hxt h4
            · exact h2 h4

theorem nodup_dedupAux : ∀ (ts seen : List Str), (dedupAux ts seen).Nodup := by
  intro ts
  induction ts with
  | nil => simp [dedupAux]
  | cons t ts ih =>
    intro seen
    by_cases h : t ∈ seen
    · rw [dedupAux, if_pos h]
      exact ih seen
    · rw [dedupAux, if_neg h]
      refine List.nodup_cons.mpr ⟨?_, ih (t :: seen)⟩
      intro hmem
      exact ((mem_dedupAux ts (t :: seen) t).mp hmem).2 (by simp)

theorem dedupAux_eq_self : ∀ (ts seen : List Str), ts.Nodup →
    (∀ x ∈ ts, x ∉ seen) → dedupAux ts seen = ts := by
  intro ts
  induction ts with
  | nil => simp [dedupAux]
  | cons t ts ih =>
    intro seen hnd hdisj
    rw [dedupAux, if_neg (hdisj t (by simp))]
    rw [ih (t :: seen) (List.nodup_cons.mp hnd).2]
    intro x hx
    intro hmem
    rcases List.mem_cons.mp hmem with h | h
    · exact (List.nodup_cons.mp hnd).1 (h ▸ hx)
    · exact hdisj x (by simp [hx]) h

/-! `Set.prototype.add`. -/

theorem mem_addIfAbsent_self (ts : List Str) (x : Str) : x ∈ addIfAbsent ts x := by
  unfold addIfAbsent
  by_cases h : x ∈ ts <;> simp [h]

theorem mem_addIfAbsent_mono (ts : List Str) (x y : Str) (h : y ∈ ts) :
    y ∈ addIfAbsent ts x := by
  unfold addIfAbsent
  by_cases hx : x ∈ ts <;> simp [hx, h]

theorem addIfAbsent_of_mem (ts : List Str) (x : Str) (h : x ∈ ts) :
    addIfAbsent ts x = ts := by
  unfold addIfAbsent
  rw [if_pos h]

theorem mem_of_addIfAbsent (ts : List Str) (x y : Str) (h : y ∈ addIfAbsent ts x) :
    y ∈ ts ∨ y = x := by
  unfold addIfAbsent at h
  by_cases hx : x ∈ ts
  · rw [if_pos hx] at h
    exact Or.inl h
  · rw [if_neg hx] at h
    rcases List.mem_append.mp h with h | h
    · exact Or.inl h
    · simp at h
      exact Or.inr h

theorem nodup_addIfAbsent (ts : List Str) (x : Str) (h : ts.Nodup) :
    (addIfAbsent ts x).Nodup := by
  unfold addIfAbsent
  by_cases hx : x ∈ ts
  · rw [if_pos hx]
    exact h
  · rw [if_neg hx]
    rw [List.nodup_append]
    refine ⟨h, List.nodup_singleton x, ?_⟩
    intro a ha hax
    simp at hax
    exact hx (hax ▸ ha)

/-! ### The hardener's output `rel` value and its stability. -/

theorem mem_joinSpace : ∀ (ts : List Str) (c : Char), c ∈ joinSpace ts →
    (∃ t ∈ ts, c ∈ t) ∨ c = ' ' := by
  intro ts
  induction ts with
  | nil => simp [joinSpace]
  | cons t ts ih =>
    intro c hc
    cases ts with
    | nil =>
      simp only [joinSpace] at hc
      exact Or.inl ⟨t, by simp, hc⟩
    | cons t2 ts2 =>
      have hj : joinSpace (t :: t2 :: ts2) = t ++ ' ' :: joinSpace (t2 :: ts2) := rfl
      rw [hj] at hc
      rcases List.mem_append.mp hc with h | h
      · exact Or.inl ⟨t, by simp, h⟩
      · rcases List.mem_cons.mp h with h | h
        · exact Or.inr h
        · rcases ih c h with ⟨u, hu, hcu⟩ | h2
          · exact Or.inl ⟨u, by simp [hu], hcu⟩
          · exact Or.inr h2

theorem relTokens_wf (attrs : List (Str × Str)) :
    ∀ t ∈ relTokens attrs, t ≠ [] ∧ ∀ c ∈ t, jsWs c = false := by
  intro t ht
  unfold relTokens at ht
  rcases mem_of_addIfAbsent _ _ _ ht with ht | ht
  · rcases mem_of_addIfAbsent _ _ _ ht with ht | ht
    · exact splitWs_wf _ t ((mem_dedupAux _ _ _).mp ht).1
    · subst ht
      exact ⟨by decide, by decide⟩
  · subst ht
    exact ⟨by decide, by decide⟩

theorem relTokens_nodup (attrs : List (Str × Str)) : (relTokens attrs).Nodup :=
  nodup_addIfAbsent _ _ (nodup_addIfAbsent _ _ (nodup_dedupAux _ _))

theorem relTokens_chars_lower (attrs : List (Str × Str)) :
    ∀ t ∈ relTokens attrs, ∀ c ∈ t, lowChar c = c := by
  intro t ht c hc
  unfold relTokens at ht
  rcases mem_of_addIfAbsent _ _ _ ht with ht | ht
  · rcases mem_of_addIfAbsent _ _ _ ht with ht | ht
    · have hmem := ((mem_dedupAux _ _ _).mp ht).1
      have hcs := splitWs_chars _ t hmem c hc
      rcases List.mem_map.mp hcs with ⟨c0, _, hc0⟩
      rw [← hc0]
      exact lowChar_idem c0
    · subst ht
      exact (by decide : ∀ x ∈ "noopener".data, lowChar x = x) c hc
  · subst ht
    exact (by decide : ∀ x ∈ "noreferrer".data, lowChar x = x) c hc

theorem noopener_mem_relTokens (attrs : List (Str × Str)) :
    "noopener".data ∈ relTokens attrs :=
  mem_addIfAbsent_mono _ _ _ (mem_addIfAbsent_self _ _)

theorem noreferrer_mem_relTokens (attrs : List (Str × Str)) :
    "noreferrer".data ∈ relTokens attrs :=
  mem_addIfAbsent_self _ _

theorem lowerStr_joinSpace_relTokens (attrs : List (Str × Str)) :
    lowerStr (joinSpace (relTokens attrs)) = joinSpace (relTokens attrs) := by
  apply lowerStr_of_fixed
  intro c hc
  rcases mem_joinSpace _ c hc with ⟨t, ht, hct⟩ | h
  · exact relTokens_chars_lower attrs t ht c hct
  · subst h
    decide

/-- Re-reading the `rel` the hardener just wrote reconstructs the same
token sequence: the written value round-trips through lowercasing,
splitting, deduplication and the two insertions. -/
theorem relTokens_stable (attrs : List (Str × Str)) :
    relTokens (setAttr attrs "rel".data (joinSpace (relTokens attrs))) = relTokens attrs := by
  conv_lhs => rw [relTokens]
  rw [getAttr_setAttr_same]
  simp only [Option.getD_some]
  rw [lowerStr_joinSpace_relTokens, splitWs_joinSpace _ (relTokens_wf attrs)]
  rw [dedupKeepFirst, dedupAux_eq_self _ _ (relTokens_nodup attrs) (by simp)]
  rw [addIfAbsent_of_mem _ _ (noopener_mem_relTokens attrs),
    addIfAbsent_of_mem _ _ (noreferrer_mem_relTokens attrs)]

theorem ensureSafeLinkAttrs_noop (tagName : Str) (attrs : List (Str × Str))
    (h : ¬(lowerStr tagName = "a".data ∧ getAttr attrs "target".data = some "_blank".data)) :
    ensureSafeLinkAttrs tagName attrs = attrs := by
  unfold ensureSafeLinkAttrs
  rw [if_neg h]

theorem ensureSafeLinkAttrs_active (tagName : Str) (attrs : List (Str × Str))
    (h : lowerStr tagName = "a".data ∧ getAttr attrs "target".data = some "_blank".data) :
    ensureSafeLinkAttrs tagName attrs =
      setAttr attrs "rel".data (joinSpace (relTokens attrs)) := by
  unfold ensureSafeLinkAttrs
  rw [if_pos h]

theorem mem_ensureSafeLinkAttrs (tagName : Str) (attrs : List (Str × Str)) (a : Str × Str)
    (h : a ∈ ensureSafeLinkAttrs tagName attrs) :
    a ∈ attrs ∨ (a = ("rel".data, joinSpace (relTokens attrs)) ∧
      lowerStr tagName = "a".data ∧
      getAttr attrs "target".data = some "_blank".data) := by
  by_cases hc : lowerStr tagName = "a".data ∧ getAttr attrs "target".data = some "_blank".data
  · rw [ensureSafeLinkAttrs_active _ _ hc] at h
    rcases mem_setAttr _ _ _ _ h with h | h
    · exact Or.inl h
    · exact Or.inr ⟨h, hc.1, hc.2⟩
  · rw [ensureSafeLinkAttrs_noop _ _ hc] at h
    exact Or.inl h

/-- Hardening an already-hardened attribute list changes nothing. -/
theorem harden_idem (tagName : Str) (attrs : List (Str × Str)) :
    ensureSafeLinkAttrs tagName (ensureSafeLinkAttrs tagName attrs) =
      ensureSafeLinkAttrs tagName attrs := by
  by_cases hc : lowerStr tagName = "a".data ∧ getAttr attrs "target".data = some "_blank".data
  · rw [ensureSafeLinkAttrs_active _ _ hc]
    have htar : getAttr (setAttr attrs "rel".data (joinSpace (relTokens attrs)))
        "target".data = some "_blank".data := by
      rw [getAttr_setAttr_other _ _ _ _ (by decide)]
      exact hc.2
    rw [ensureSafeLinkAttrs_active _ _ ⟨hc.1, htar⟩, relTokens_stable, setAttr_setAttr]
  · rw [ensureSafeLinkAttrs_noop _ _ hc, ensureSafeLinkAttrs_noop _ _ hc]

theorem attrPass_rel (tag v : Str) (htag : tag = "a".data) :
    attrPass tag ("rel".data, v) = true := by
  subst htag
  unfold attrPass
  have h1 : isAllowedAttr "a".data (lowerStr "rel".data) = true := by decide
  have h2 : decide (lowerStr "rel".data = "href".data) = false := by decide
  have h3 : decide (lowerStr "rel".data = "src".data) = false := by decide
  simp [h1, h2, h3]

/-- Attribute-sanitizing the output of the keep branch removes nothing. -/
theorem sanitizeAttrs_harden_stable (tagName : Str) (attrs : List (Str × Str)) :
    sanitizeAttrs (lowerStr tagName)
      (ensureSafeLinkAttrs tagName (sanitizeAttrs (lowerStr tagName) attrs)) =
      ensureSafeLinkAttrs tagName (sanitizeAttrs (lowerStr tagName) attrs) := by
  apply sanitizeAttrs_of_all_pass
  intro a ha
  rcases mem_ensureSafeLinkAttrs _ _ _ ha with h | ⟨hrel, htag, _⟩
  · exact (mem_sanitizeAttrs _ _ _ h).2
  · rw [hrel]
    exact attrPass_rel _ _ htag

/-- The keep branch's attribute transformation is idempotent. -/
theorem keptAttrs_idem (tagName : Str) (attrs : List (Str × Str)) :
    ensureSafeLinkAttrs tagName (sanitizeAttrs (lowerStr tagName)
      (ensureSafeLinkAttrs tagName (sanitizeAttrs (lowerStr tagName) attrs))) =
      ensureSafeLinkAttrs tagName (sanitizeAttrs (lowerStr tagName) attrs) := by
  rw [sanitizeAttrs_harden_stable, harden_idem]

/-! ### Invariants of the recursive pass. -/

/-- Sanitizing twice equals sanitizing once (tree level): kept elements
stay kept, and their attribute lists are stable under a second pass. -/
theorem pureSanitize_idem : ∀ F : NodeList, pureSanitize (pureSanitize F) = pureSanitize F
  | .nil => by simp [pureSanitize]
  | .cons (.text i s) rest => by
    simp [pureSanitize, pureSanitize_idem rest]
  | .cons (.elem i tag attrs cs) rest => by
    by_cases h1 : lowerStr tag ∈ ALWAYS_DROP
    · simp only [pureSanitize, if_pos h1]
      exact pureSanitize_idem rest
    · by_cases h2 : lowerStr tag ∈ SAFE_ELEMENTS
      · simp only [pureSanitize, if_neg h1, if_neg (not_not_intro h2)]
        rw [pureSanitize_idem cs, pureSanitize_idem rest, keptAttrs_idem]
      · simp only [pureSanitize, if_neg h1, if_pos h2]
        exact pureSanitize_idem (cs ++ rest)
termination_by F => forestSize F
decreasing_by
  all_goals simp [forestSize, nodeSize, forestSize_append]
  all_goals omega

theorem allIds_pureSanitize :
    ∀ F : NodeList, List.Sublist (forestAllIds (pureSanitize F)) (forestAllIds F)
  | .nil => by simp [pureSanitize]
  | .cons (.text i s) rest => by
    simpa [pureSanitize, forestAllIds, nodeAllIds] using
      (allIds_pureSanitize rest).cons₂ i
  | .cons (.elem i tag attrs cs) rest => by
    by_cases h1 : lowerStr tag ∈ ALWAYS_DROP
    · have ih := allIds_pureSanitize rest
      simp only [pureSanitize, if_pos h1]
      refine ih.trans ?_
      simp [forestAllIds, nodeAllIds]
    · by_cases h2 : lowerStr tag ∈ SAFE_ELEMENTS
      · have ihc := allIds_pureSanitize cs
        have ihr := allIds_pureSanitize rest
        simp only [pureSanitize, if_neg h1, if_neg (not_not_intro h2)]
        simpa [forestAllIds, nodeAllIds] using (ihc.append ihr).cons₂ i
      · have ih := allIds_pureSanitize (cs ++ rest)
        simp only [pureSanitize, if_neg h1, if_pos h2]
        refine ih.trans ?_
        simp [forestAllIds, nodeAllIds, forestAllIds_append]
termination_by F => forestSize F
decreasing_by
  all_goals simp [forestSize, nodeSize, forestSize_append]
  all_goals omega

/-! Subtree membership and node identities. -/

mutual
theorem nodeSubnodes_ids : ∀ (n d : Node), d ∈ nodeSubnodes n →
    ∀ j ∈ nodeAllIds d, j ∈ nodeAllIds n
  | .text i s => by
    intro d hd j hj
    simp [nodeSubnodes] at hd
    subst hd
    exact hj
  | .elem i tag attrs cs => by
    intro d hd j hj
    rw [nodeSubnodes] at hd
    rcases List.mem_cons.mp hd with h | h
    · subst h
      exact hj
    · have := forestSubnodes_ids cs d h j hj
      simp [nodeAllIds, this]
theorem forestSubnodes_ids : ∀ (F : NodeList) (d : Node), d ∈ forestSubnodes F →
    ∀ j ∈ nodeAllIds d, j ∈ forestAllIds F
  | .nil => by
    intro d hd
    simp [forestSubnodes] at hd
  | .cons n rest => by
    intro d hd j hj
    rw [forestSubnodes] at hd
    rcases List.mem_append.mp hd with h | h
    · have := nodeSubnodes_ids n d h j hj
      simp [forestAllIds, this]
    · have := forestSubnodes_ids rest d h j hj
      simp [forestAllIds, this]
end

/-! In a tree with globally distinct ids, an element subnode is
determined by its id. -/

mutual
theorem nodeSubUnique : ∀ (n : Node), (nodeAllIds n).Nodup →
    ∀ i t1 a1 c1 t2 a2 c2, (Node.elem i t1 a1 c1) ∈ nodeSubnodes n →
      (Node.elem i t2 a2 c2) ∈ nodeSubnodes n → t1 = t2 ∧ a1 = a2 ∧ c1 = c2
  | .text _ _ => by
    intro _ i t1 a1 c1 t2 a2 c2 h1
    simp [nodeSubnodes] at h1
  | .elem id tag attrs cs => by
    intro hnd i t1 a1 c1 t2 a2 c2 h1 h2
    rw [nodeSubnodes] at h1 h2
    have hid : id ∉ forestAllIds cs := by
      have := (List.nodup_cons.mp (by simpa [nodeAllIds] using hnd)).1
      exact this
    have hcsnd : (forestAllIds cs).Nodup :=
      (List.nodup_cons.mp (by simpa [nodeAllIds] using hnd)).2
    rcases List.mem_cons.mp h1 with ha | ha <;> rcases List.mem_cons.mp h2 with hb | hb
    · have e1 := ha
      have e2 := hb
      rw [Node.elem.injEq] at e1 e2
      exact ⟨e1.2.1.trans e2.2.1.symm, e1.2.2.1.trans e2.2.2.1.symm,
        e1.2.2.2.trans e2.2.2.2.symm⟩
    · exfalso
      have hieq : i = id := (Node.elem.injEq .. |>.mp ha).1
      have : i ∈ forestAllIds cs :=
        forestSubnodes_ids cs _ hb i (by simp [nodeAllIds])
      exact hid (hieq ▸ this)
    · exfalso
      have hieq : i = id := (Node.elem.injEq .. |>.mp hb).1
      have : i ∈ forestAllIds cs :=
        forestSubnodes_ids cs _ ha i (by simp [nodeAllIds])
      exact hid (hieq ▸ this)
    · exact forestSubUnique cs hcsnd i t1 a1 c1 t2 a2 c2 ha hb
theorem forestSubUnique : ∀ (F : NodeList), (forestAllIds F).Nodup →
    ∀ i t1 a1 c1 t2 a2 c2, (Node.elem i t1 a1 c1) ∈ forestSubnodes F →
      (Node.elem i t2 a2 c2) ∈ forestSubnodes F → t1 = t2 ∧ a1 = a2 ∧ c1 = c2
  | .nil => by
    intro _ i t1 a1 c1 t2 a2 c2 h1
    simp [forestSubnodes] at h1
  | .cons n rest => by
    intro hnd i t1 a1 c1 t2 a2 c2 h1 h2
    rw [forestSubnodes] at h1 h2
    have hnd2 := by simpa [forestAllIds, List.nodup_append] using hnd
    rcases List.mem_append.mp h1 with ha | ha <;> rcases List.mem_append.mp h2 with hb | hb
    · exact nodeSubUnique n hnd2.1 i t1 a1 c1 t2 a2 c2 ha hb
    · exfalso
      have hin : i ∈ nodeAllIds n := nodeSubnodes_ids n _ ha i (by simp [nodeAllIds])
      have hir : i ∈ forestAllIds rest := forestSubnodes_ids rest _ hb i (by simp [nodeAllIds])
      exact hnd2.2.2 hin hir
    · exfalso
      have hin : i ∈ nodeAllIds n := nodeSubnodes_ids n _ hb i (by simp [nodeAllIds])
      have hir : i ∈ forestAllIds rest := forestSubnodes_ids rest _ ha i (by simp [nodeAllIds])
      exact hnd2.2.2 hin hir
    · exact forestSubUnique rest hnd2.2.1 i t1 a1 c1 t2 a2 c2 ha hb
end

/-! ### The output invariant: safe tags, allowed attributes, safe URLs. -/

theorem isAllowedAttr_lower (tag name : Str) :
    isAllowedAttr tag (lowerStr name) = isAllowedAttr tag name := by
  unfold isAllowedAttr
  rw [lowerStr_idem]

theorem isAllowedAttr_props (tag name : Str) (h : isAllowedAttr tag name = true) :
    strStarts "on".data (lowerStr name) = false ∧ lowerStr name ≠ "style".data := by
  unfold isAllowedAttr at h
  by_cases h1 : strStarts "on".data (lowerStr name) = true
  · rw [if_pos h1] at h
    exact absurd h (by simp)
  · by_cases h2 : lowerStr name = "style".data
    · rw [if_neg h1, if_pos h2] at h
      exact absurd h (by simp)
    · exact ⟨Bool.eq_false_iff.mpr h1, h2⟩

/-- The per-attribute invariant as the spec states it for outputs: the
name is allowed by the tables, is not an event handler and not `style`,
and URL-bearing values are safe. -/
def attrOk (tag : Str) (a : Str × Str) : Bool :=
  isAllowedAttr tag a.1 &&
    !(strStarts "on".data (lowerStr a.1)) && !(decide (lowerStr a.1 = "style".data)) &&
    (!(decide (lowerStr a.1 = "href".data) || decide (lowerStr a.1 = "src".data)) ||
      isSafeUrl (some a.2))

/-- The per-node invariant: text is unconstrained, an element's
(lowercased) tag is in the allowlist and all its attributes satisfy
`attrOk`. -/
def nodeOk : Node → Bool
  | .text _ _ => true
  | .elem _ tag attrs _ =>
    decide (lowerStr tag ∈ SAFE_ELEMENTS) && attrs.all (attrOk (lowerStr tag))

theorem attrPass_imp_attrOk (tag : Str) (a : Str × Str) (h : attrPass tag a = true) :
    attrOk tag a = true := by
  unfold attrPass at h
  rw [Bool.and_eq_true_eq_eq_true_and_eq_true] at h
  rcases h with ⟨h1, h2⟩
  have h1' : isAllowedAttr tag a.1 = true := (isAllowedAttr_lower tag a.1) ▸ h1
  have hprops := isAllowedAttr_props tag (lowerStr a.1) h1
  rw [lowerStr_idem] at hprops
  unfold attrOk
  rw [h1', hprops.1, h2]
  simp [hprops.2]

/-- Every node of the recursive pass's output satisfies the invariant:
element tags are in `SAFE_ELEMENTS` and all attributes pass. -/
theorem pureSanitize_nodeOk :
    ∀ F : NodeList, ∀ d ∈ forestSubnodes (pureSanitize F), nodeOk d = true
  | .nil => by simp [pureSanitize, forestSubnodes]
  | .cons (.text i s) rest => by
    intro d hd
    simp only [pureSanitize, forestSubnodes, nodeSubnodes] at hd
    rcases List.mem_append.mp hd with h | h
    · simp at h
      subst h
      rfl
    · exact pureSanitize_nodeOk rest d h
  | .cons (.elem i tag attrs cs) rest => by
    intro d hd
    by_cases h1 : lowerStr tag ∈ ALWAYS_DROP
    · rw [pureSanitize, if_pos h1] at hd
      exact pureSanitize_nodeOk rest d hd
    · by_cases h2 : lowerStr tag ∈ SAFE_ELEMENTS
      · rw [pureSanitize, if_neg h1, if_neg (not_not_intro h2)] at hd
        rw [forestSubnodes, nodeSubnodes] at hd
        rcases List.mem_append.mp hd with h | h
        · rcases List.mem_cons.mp h with h | h
          · subst h
            unfold nodeOk
            rw [Bool.and_eq_true]
            refine ⟨by simp [h2], ?_⟩
            rw [List.all_eq_true]
            intro a ha
            rcases mem_ensureSafeLinkAttrs _ _ _ ha with hm | ⟨hrel, htag, _⟩
            · exact attrPass_imp_attrOk _ _ (mem_sanitizeAttrs _ _ _ hm).2
            · rw [hrel]
              exact attrPass_imp_attrOk _ _ (attrPass_rel _ _ htag)
          · exact pureSanitize_nodeOk cs d h
        · exact pureSanitize_nodeOk rest d h
      · rw [pureSanitize, if_neg h1, if_pos h2] at hd
        exact pureSanitize_nodeOk (cs ++ rest) d hd
termination_by F => forestSize F
decreasing_by
  all_goals simp [forestSize, nodeSize, forestSize_append]
  all_goals omega

/-- Drop completeness: in a tree with distinct ids, no node of an
always-dropped element's subtree (the element, its descendant elements
and its descendant text) survives into the output. -/
theorem pureSanitize_drop_complete :
    ∀ F : NodeList, (forestAllIds F).Nodup →
      ∀ i tag attrs cs, (Node.elem i tag attrs cs) ∈ forestSubnodes F →
        lowerStr tag ∈ ALWAYS_DROP →
        ∀ j ∈ nodeAllIds (Node.elem i tag attrs cs), j ∉ forestAllIds (pureSanitize F)
  | .nil => by
    intro _ i tag attrs cs h
    simp [forestSubnodes] at h
  | .cons (.text tid s) rest => by
    intro hnd i tag attrs cs hmem had j hj hout
    have hnd1 : (tid :: forestAllIds rest).Nodup := by
      simpa [forestAllIds, nodeAllIds] using hnd
    have htid := (List.nodup_cons.mp hnd1).1
    have hnd2 := (List.nodup_cons.mp hnd1).2
    rw [forestSubnodes, nodeSubnodes] at hmem
    rcases List.mem_append.mp hmem with hm | hm
    · simp at hm
    · rw [pureSanitize] at hout
      have hjrest : j ∈ forestAllIds rest := forestSubnodes_ids rest _ hm j hj
      simp [forestAllIds, nodeAllIds] at hout
      rcases hout with h | h
      · exact htid (h ▸ hjrest)
      · exact pureSanitize_drop_complete rest hnd2 i tag attrs cs hm had j hj h
  | .cons (.elem i0 t0 a0 c0) rest => by
    intro hnd i tag attrs cs hmem had j hj hout
    have hflat : (i0 :: (forestAllIds c0 ++ forestAllIds rest)).Nodup := by
      simpa [forestAllIds, nodeAllIds] using hnd
    have hi0 := (List.nodup_cons.mp hflat).1
    have htail := (List.nodup_cons.mp hflat).2
    have hndc0 : (forestAllIds c0).Nodup := (List.nodup_append.mp htail).1
    have hndrest : (forestAllIds rest).Nodup := (List.nodup_append.mp htail).2.1
    have hdisjcr : ∀ x ∈ forestAllIds c0, x ∉ forestAllIds rest :=
      fun x hx => (List.nodup_append.mp htail).2.2 hx
    have hi0c0 : i0 ∉ forestAllIds c0 := fun h => hi0 (by simp [h])
    have hi0rest : i0 ∉ forestAllIds rest := fun h => hi0 (by simp [h])
    rw [forestSubnodes, nodeSubnodes] at hmem
    rcases List.mem_append.mp hmem with hm | hm
    · rcases List.mem_cons.mp hm with hm | hm
      · -- the always-dropped element is the head of the forest
        have e := hm
        rw [Node.elem.injEq] at e
        obtain ⟨ei, et, _, ec⟩ := e
        have had0 : lowerStr t0 ∈ ALWAYS_DROP := et ▸ had
        rw [pureSanitize, if_pos had0] at hout
        have hj0 : j ∈ i0 :: forestAllIds c0 := by
          have hx : nodeAllIds (Node.elem i tag attrs cs) = i :: forestAllIds cs := by
            simp [nodeAllIds]
          rw [hx, ei, ec] at hj
          exact hj
        have hjrest : j ∉ forestAllIds rest := by
          rcases List.mem_cons.mp hj0 with h | h
          · exact h ▸ hi0rest
          · exact hdisjcr j h
        exact hjrest ((allIds_pureSanitize rest).subset hout)
      · -- the always-dropped element lies inside the head's children
        have hjc0 : j ∈ forestAllIds c0 := forestSubnodes_ids c0 _ hm j hj
        by_cases h1 : lowerStr t0 ∈ ALWAYS_DROP
        · rw [pureSanitize, if_pos h1] at hout
          exact hdisjcr j hjc0 ((allIds_pureSanitize rest).subset hout)
        · by_cases h2 : lowerStr t0 ∈ SAFE_ELEMENTS
          · rw [pureSanitize, if_neg h1, if_neg (not_not_intro h2)] at hout
            simp [forestAllIds, nodeAllIds] at hout
            rcases hout with h | h | h
            · exact hi0c0 (h ▸ hjc0)
            · exact pureSanitize_drop_complete c0 hndc0 i tag attrs cs hm had j hj h
            · exact hdisjcr j hjc0 ((allIds_pureSanitize rest).subset h)
          · rw [pureSanitize, if_neg h1, if_pos h2] at hout
            have hmem2 : (Node.elem i tag attrs cs) ∈ forestSubnodes (c0 ++ rest) := by
              rw [forestSubnodes_append]
              exact List.mem_append.mpr (Or.inl hm)
            have hnd5 : (forestAllIds (c0 ++ rest)).Nodup := by
              rw [forestAllIds_append]
              exact htail
            exact pureSanitize_drop_complete (c0 ++ rest) hnd5 i tag attrs cs hmem2 had j hj hout
    · -- the always-dropped element lies among the later siblings
      have hjrest : j ∈ forestAllIds rest := forestSubnodes_ids rest _ hm j hj
      by_cases h1 : lowerStr t0 ∈ ALWAYS_DROP
      · rw [pureSanitize, if_pos h1] at hout
        exact pureSanitize_drop_complete rest hndrest i tag attrs cs hm had j hj hout
      · by_cases h2 : lowerStr t0 ∈ SAFE_ELEMENTS
        · rw [pureSanitize, if_neg h1, if_neg (not_not_intro h2)] at hout
          simp [forestAllIds, nodeAllIds] at hout
          rcases hout with h | h | h
          · exact hi0rest (h ▸ hjrest)
          · exact hdisjcr j ((allIds_pureSanitize c0).subset h) hjrest
          · exact pureSanitize_drop_complete rest hndrest i tag attrs cs hm had j hj h
        · rw [pureSanitize, if_neg h1, if_pos h2] at hout
          have hmem2 : (Node.elem i tag attrs cs) ∈ forestSubnodes (c0 ++ rest) := by
            rw [forestSubnodes_append]
            exact List.mem_append.mpr (Or.inr hm)
          have hnd5 : (forestAllIds (c0 ++ rest)).Nodup := by
            rw [forestAllIds_append]
            exact htail
          exact pureSanitize_drop_complete (c0 ++ rest) hnd5 i tag attrs cs hmem2 had j hj hout
termination_by F => forestSize F
decreasing_by
  all_goals simp [forestSize, nodeSize, forestSize_append]
  all_goals omega

/-- Every element id in the output belongs to an input element whose tag
is in the allowlist: dropped and unwrapped tags leave no element behind. -/
theorem pureSanitize_elem_tags :
    ∀ F : NodeList, ∀ j ∈ forestElemIds (pureSanitize F),
      ∃ tag attrs cs, (Node.elem j tag attrs cs) ∈ forestSubnodes F ∧
        lowerStr tag ∈ SAFE_ELEMENTS
  | .nil => by simp [pureSanitize, forestElemIds]
  | .cons (.text i s) rest => by
    intro j hj
    rw [pureSanitize] at hj
    simp only [forestElemIds, nodeElemIds, List.nil_append] at hj
    obtain ⟨tag, attrs, cs, hmem, hsafe⟩ := pureSanitize_elem_tags rest j hj
    refine ⟨tag, attrs, cs, ?_, hsafe⟩
    rw [forestSubnodes, nodeSubnodes]
    simp [hmem]
  | .cons (.elem i0 t0 a0 c0) rest => by
    intro j hj
    by_cases h1 : lowerStr t0 ∈ ALWAYS_DROP
    · rw [pureSanitize, if_pos h1] at hj
      obtain ⟨tag, attrs, cs, hmem, hsafe⟩ := pureSanitize_elem_tags rest j hj
      refine ⟨tag, attrs, cs, ?_, hsafe⟩
      rw [forestSubnodes]
      exact List.mem_append.mpr (Or.inr hmem)
    · by_cases h2 : lowerStr t0 ∈ SAFE_ELEMENTS
      · rw [pureSanitize, if_neg h1, if_neg (not_not_intro h2)] at hj
        simp only [forestElemIds, nodeElemIds, List.cons_append, List.mem_cons,
          List.mem_append] at hj
        rcases hj with hj | hj | hj
        · exact ⟨t0, a0, c0, by rw [hj, forestSubnodes, nodeSubnodes]; simp, h2⟩
        · obtain ⟨tag, attrs, cs, hmem, hsafe⟩ := pureSanitize_elem_tags c0 j hj
          refine ⟨tag, attrs, cs, ?_, hsafe⟩
          rw [forestSubnodes, nodeSubnodes]
          simp [hmem]
        · obtain ⟨tag, attrs, cs, hmem, hsafe⟩ := pureSanitize_elem_tags rest j hj
          refine ⟨tag, attrs, cs, ?_, hsafe⟩
          rw [forestSubnodes]
          exact List.mem_append.mpr (Or.inr hmem)
      · rw [pureSanitize, if_neg h1, if_pos h2] at hj
        obtain ⟨tag, attrs, cs, hmem, hsafe⟩ := pureSanitize_elem_tags (c0 ++ rest) j hj
        rw [forestSubnodes_append] at hmem
        refine ⟨tag, attrs, cs, ?_, hsafe⟩
        rw [forestSubnodes, nodeSubnodes]
        rcases List.mem_append.mp hmem with h | h <;> simp [h]
termination_by F => forestSize F
decreasing_by
  all_goals simp [forestSize, nodeSize, forestSize_append]
  all_goals omega

/-- A tag outside the allowlist (unwrapped or dropped) never appears in
the output: the element's identity is gone from the sanitized tree. -/
theorem nonsafe_id_absent (F : NodeList) (hnd : (forestAllIds F).Nodup)
    (i : Nat) (tag : Str) (attrs : List (Str × Str)) (cs : NodeList)
    (hmem : (Node.elem i tag attrs cs) ∈ forestSubnodes F)
    (h : lowerStr tag ∉ SAFE_ELEMENTS) :
    i ∉ forestElemIds (pureSanitize F) := by
  intro hj
  obtain ⟨t2, a2, c2, hm2, hsafe⟩ := pureSanitize_elem_tags F i hj
  obtain ⟨ht, _, _⟩ := forestSubUnique F hnd i tag attrs cs t2 a2 c2 hmem hm2
  exact h (ht ▸ hsafe)

/-! ### Step-level equations for the three classifier outcomes. -/

/-- Unwrap splice: the walker step on an element whose tag is neither
safe nor always-dropped replaces the element, at its position, by its
children in order; the emptied element itself becomes detached. -/
theorem stepForest_unwrap (i : Nat) (tag : Str) (attrs : List (Str × Str))
    (cs A B : NodeList) (hA : i ∉ forestElemIds A)
    (h1 : lowerStr tag ∉ ALWAYS_DROP) (h2 : lowerStr tag ∉ SAFE_ELEMENTS) :
    stepForest i (A ++ .cons (.elem i tag attrs cs) B) =
      (A ++ (cs ++ B), [.elem i tag attrs .nil]) := by
  rw [stepForest_append_absent _ _ _ hA]
  have hstep : stepForest i (NodeList.cons (.elem i tag attrs cs) B) =
      (cs ++ B, [.elem i tag attrs .nil]) := by
    simp [stepForest, nodeElemIds, stepNode, classify, h1, h2]
  rw [hstep]

/-- Drop: the walker step on an always-dropped element removes the whole
subtree from the tree (the replacement is independent of the element's
attributes and children, which are not examined). -/
theorem stepForest_drop (i : Nat) (tag : Str) (attrs : List (Str × Str))
    (cs A B : NodeList) (hA : i ∉ forestElemIds A)
    (h1 : lowerStr tag ∈ ALWAYS_DROP) :
    stepForest i (A ++ .cons (.elem i tag attrs cs) B) =
      (A ++ B, [.elem i tag attrs cs]) := by
  rw [stepForest_append_absent _ _ _ hA]
  have hstep : stepForest i (NodeList.cons (.elem i tag attrs cs) B) =
      (B, [.elem i tag attrs cs]) := by
    simp [stepForest, nodeElemIds, stepNode, classify, h1]
    exact NodeList.nil_append B
  rw [hstep]

/-! ### The walker on detached snapshot entries. -/

/-- A walker iteration whose target is no longer in the live tree leaves
the live tree unchanged (the classifier acts only on the detached
node). -/
theorem stepState_detached (st : DomState) (i : Nat)
    (h : i ∉ forestElemIds st.live) : (stepState st i).live = st.live := by
  unfold stepState
  rw [if_neg h]

/-- Moreover the remainder of the walk, and hence the serialized output,
is unaffected by having processed a detached entry. -/
theorem walk_detached_no_effect (st : DomState) (i : Nat) (ids : List Nat)
    (h : i ∉ forestElemIds st.live) :
    (ids.foldl stepState (stepState st i)).live = (ids.foldl stepState st).live := by
  rw [foldl_stepState_live, foldl_stepState_live, stepState_live,
    stepLiveOnly_absent _ _ h]

/-! ### Idempotence of the walk, and the entry point. -/

theorem sanitizeWalk_idem (F : NodeList) (h : (forestAllIds F).Nodup) :
    sanitizeWalk (sanitizeWalk F) = sanitizeWalk F := by
  have h1 : (forestElemIds F).Nodup := (forestElemIds_sublist_allIds F).nodup h
  have h2 : (forestElemIds (pureSanitize F)).Nodup := (elemIds_pureSanitize F).nodup h1
  rw [sanitizeWalk_eq_pure F h1, sanitizeWalk_eq_pure (pureSanitize F) h2, pureSanitize_idem]

/-- The options value of `sanitize`: the single recognized option, a
document-builder factory (`options.createDocument`). -/
structure SanitizeOptions where
  createDocument : Option (Str → NodeList)

/-- The only error `sanitize` raises: no DOM available. -/
inductive SanitizeError where
  | configurationError
deriving DecidableEq

/-- `sanitize` from `src/sanitize.js` (lines 137-154).  The two
collaborators excluded by the spec are parameters: `ambient` stands for
the environment's `window.DOMParser` (present or not), and `serialize`
for reading back `body.innerHTML`; a parser maps the input string to the
body's child forest. -/
def sanitize (html : Option Str) (options : SanitizeOptions)
    (ambient : Option (Str → NodeList)) (serialize : NodeList → Str) :
    Except SanitizeError Str :=
  match html with
  | none => .ok []
  | some h =>
    match options.createDocument with
    | some createDocument => .ok (serialize (sanitizeWalk (createDocument h)))
    | none =>
      match ambient with
      | some domParser => .ok (serialize (sanitizeWalk (domParser h)))
      | none => .error .configurationError

/-- Modelled from the spec: the string-level pipeline of section 2
(string → parsed tree → mutated tree → string), with the parsing and
serialization collaborators — which are not part of this repository —
abstracted as function parameters. -/
def sanitizeStr (parse : Str → NodeList) (serialize : NodeList → Str) (s : Str) : Str :=
  serialize (sanitizeWalk (parse s))

theorem sanitize_ok_of_createDocument (h : Str) (options : SanitizeOptions)
    (ambient : Option (Str → NodeList)) (serialize : NodeList → Str)
    (f : Str → NodeList) (hf : options.createDocument = some f) :
    sanitize (some h) options ambient serialize = .ok (sanitizeStr f serialize h) := by
  unfold sanitize sanitizeStr
  rw [hf]

/-! ### The hardener against the spec's and the claim's descriptions. -/

/-- The claim's description of the hardener's token computation, taken
verbatim: split the current `rel` value (absent treated as empty) on
whitespace into a deduplicated first-seen-order token sequence — with no
lowercasing step — then append `noopener` and `noreferrer` when not
already present. -/
def claimHardenRel (attrs : List (Str × Str)) : List Str :=
  addIfAbsent (addIfAbsent
    (dedupKeepFirst (splitWs ((getAttr attrs "rel".data).getD [])))
    "noopener".data) "noreferrer".data

/-- The hardener as the claim describes it (no lowercasing of `rel`). -/
def claimHarden (tagName : Str) (attrs : List (Str × Str)) : List (Str × Str) :=
  if lowerStr tagName = "a".data ∧ getAttr attrs "target".data = some "_blank".data then
    setAttr attrs "rel".data (joinSpace (claimHardenRel attrs))
  else attrs

/-- The amended description's token computation, phrased independently of
the code: the deduplicated tokens of the lowercased `rel`, followed by
whichever of `noopener`, `noreferrer` are missing, in that order. -/
def specHardenRel (attrs : List (Str × Str)) : List Str :=
  let existing :=
    dedupKeepFirst (splitWs (lowerStr ((getAttr attrs "rel".data).getD [])))
  existing ++ (["noopener".data, "noreferrer".data].filter
    (fun x => ! decide (x ∈ existing)))

/-- The hardener as amended: identical to the claim's description except
that the current `rel` value is lowercased before splitting. -/
def specHarden (tagName : Str) (attrs : List (Str × Str)) : List (Str × Str) :=
  if lowerStr tagName = "a".data ∧ getAttr attrs "target".data = some "_blank".data then
    setAttr attrs "rel".data (joinSpace (specHardenRel attrs))
  else attrs

theorem relTokens_eq_specHardenRel (attrs : List (Str × Str)) :
    relTokens attrs = specHardenRel attrs := by
  unfold relTokens specHardenRel
  set E := dedupKeepFirst (splitWs (lowerStr ((getAttr attrs "rel".data).getD [])))
  by_cases hno : "noopener".data ∈ E
  · rw [addIfAbsent_of_mem _ _ hno]
    by_cases hnr : "noreferrer".data ∈ E
    · rw [addIfAbsent_of_mem _ _ hnr]
      simp [hno, hnr]
    · unfold addIfAbsent
      rw [if_neg hnr]
      simp [hno, hnr]
  · have h1 : addIfAbsent E "noopener".data = E ++ ["noopener".data] := by
      unfold addIfAbsent
      rw [if_neg hno]
    rw [h1]
    by_cases hnr : "noreferrer".data ∈ E
    · have h2 : "noreferrer".data ∈ E ++ ["noopener".data] := by simp [hnr]
      rw [addIfAbsent_of_mem _ _ h2]
      simp [hno, hnr]
    · have h2 : "noreferrer".data ∉ E ++ ["noopener".data] := by
        intro h
        rcases List.mem_append.mp h with h | h
        · exact hnr h
        · simp at h
      unfold addIfAbsent
      rw [if_neg h2]
      simp [hno, hnr]

theorem ensureSafeLinkAttrs_eq_specHarden (tagName : Str) (attrs : List (Str × Str)) :
    ensureSafeLinkAttrs tagName attrs = specHarden tagName attrs := by
  unfold ensureSafeLinkAttrs specHarden
  rw [relTokens_eq_specHardenRel]

/-- Lowercased pre-existing tokens are all preserved in the output. -/
theorem relTokens_preserves (attrs : List (Str × Str)) :
    ∀ t ∈ splitWs (lowerStr ((getAttr attrs "rel".data).getD [])), t ∈ relTokens attrs := by
  intro t ht
  unfold relTokens
  refine mem_addIfAbsent_mono _ _ _ (mem_addIfAbsent_mono _ _ _ ?_)
  rw [dedupKeepFirst, mem_dedupAux]
  exact ⟨ht, by simp⟩

/-! ### The claims. -/

/-- C1: for every input (including the null/empty case), `isSafeUrl`
computes exactly the algorithm the spec prescribes: strip control
characters and whitespace anywhere and lowercase; reject the
javascript/vbscript/data/file prefixes; accept protocol-relative `//`;
for a first colon at position > 0 accept iff the scheme is exactly
`http` or `https`; accept values with no colon or a leading colon. -/
theorem urlValidator_follows_spec : ∀ raw : Option Str, isSafeUrl raw = specSafeUrl raw :=
  isSafeUrl_eq_spec

/-- C2: after the walk completes, every element remaining in the tree
has a tag in the safe-tag allowlist, and every remaining attribute is
allowed by the global or tag-specific tables, is never `on`-prefixed nor
`style`, and `href`/`src` values satisfy `isSafeUrl` (trees with the
DOM's distinct node identities). -/
theorem walk_output_invariant (F : NodeList) (h : (forestAllIds F).Nodup) :
    ∀ d ∈ forestSubnodes (sanitizeWalk F), nodeOk d = true := by
  rw [sanitizeWalk_eq_pure F ((forestElemIds_sublist_allIds F).nodup h)]
  exact pureSanitize_nodeOk F

theorem walk_output_invariant_witness :
    (forestAllIds (NL [.elem 0 "a".data
        [("href".data, "javascript:alert(1)".data), ("target".data, "_blank".data)]
        (NL [.text 1 "x".data]),
      .elem 2 "script".data [] (NL [.text 3 "boom".data])])).Nodup ∧
    ∀ d ∈ forestSubnodes (sanitizeWalk (NL [.elem 0 "a".data
        [("href".data, "javascript:alert(1)".data), ("target".data, "_blank".data)]
        (NL [.text 1 "x".data]),
      .elem 2 "script".data [] (NL [.text 3 "boom".data])])), nodeOk d = true :=
  ⟨by decide, walk_output_invariant _ (by decide)⟩

/-- C3: an always-dropped element is removed with its entire subtree.
First conjunct: the walker step on such an element removes exactly the
element's slot, with a result independent of its attributes and
children (they are not examined).  Second conjunct: no identity of the
element's subtree — element, descendant elements or descendant text —
occurs in the walk's output. -/
theorem alwaysDrop_subtree_removed :
    (∀ (i : Nat) (tag : Str) (attrs : List (Str × Str)) (cs A B : NodeList),
      lowerStr tag ∈ ALWAYS_DROP → i ∉ forestElemIds A →
      stepForest i (A ++ .cons (.elem i tag attrs cs) B) =
        (A ++ B, [.elem i tag attrs cs])) ∧
    (∀ F : NodeList, (forestAllIds F).Nodup →
      ∀ (i : Nat) (tag : Str) (attrs : List (Str × Str)) (cs : NodeList),
        (Node.elem i tag attrs cs) ∈ forestSubnodes F →
        lowerStr tag ∈ ALWAYS_DROP →
        ∀ j ∈ nodeAllIds (Node.elem i tag attrs cs),
          j ∉ forestAllIds (sanitizeWalk F)) := by
  constructor
  · intro i tag attrs cs A B h1 hA
    exact stepForest_drop i tag attrs cs A B hA h1
  · intro F hnd i tag attrs cs hmem had j hj
    rw [sanitizeWalk_eq_pure F ((forestElemIds_sublist_allIds F).nodup hnd)]
    exact pureSanitize_drop_complete F hnd i tag attrs cs hmem had j hj

theorem alwaysDrop_subtree_removed_witness :
    lowerStr "script".data ∈ ALWAYS_DROP ∧
    stepForest 1 (NL [.text 0 "hi".data] ++
        .cons (.elem 1 "script".data [] (NL [.text 2 "x".data])) .nil) =
      (NL [.text 0 "hi".data] ++ .nil, [.elem 1 "script".data [] (NL [.text 2 "x".data])]) ∧
    2 ∉ forestAllIds (sanitizeWalk (NL [.elem 3 "p".data []
      (NL [.elem 1 "script".data [] (NL [.text 2 "x".data])])])) :=
  ⟨by decide,
   alwaysDrop_subtree_removed.1 1 "script".data [] (NL [.text 2 "x".data])
     (NL [.text 0 "hi".data]) .nil (by decide) (by decide),
   alwaysDrop_subtree_removed.2
     (NL [.elem 3 "p".data [] (NL [.elem 1 "script".data [] (NL [.text 2 "x".data])])])
     (by decide) 1 "script".data [] (NL [.text 2 "x".data]) (by decide) (by decide)
     2 (by decide)⟩

/-- C4: the attribute-name decision is exactly the spec's ordered check
(`on` prefix or `style` forbidden, then the global allowlist, then the
tag's table), and on an element with duplicate-free attribute names the
loop keeps an attribute iff its name is allowed and, when the lowercased
name is `href` or `src`, its value is a safe URL — a failing attribute
is removed, never rewritten. -/
theorem attribute_decision_and_removal :
    (∀ tag name : Str, isAllowedAttr tag name = specAllowedAttribute tag name) ∧
    (∀ (tag : Str) (attrs : List (Str × Str)), (attrs.map Prod.fst).Nodup →
      sanitizeAttrs tag attrs = attrs.filter (fun a =>
        isAllowedAttr tag a.1 &&
          (!(decide (lowerStr a.1 = "href".data) || decide (lowerStr a.1 = "src".data)) ||
            isSafeUrl (some a.2)))) := by
  constructor
  · exact isAllowedAttr_eq_spec
  · intro tag attrs hnd
    rw [sanitizeAttrs_eq_filter tag attrs hnd]
    refine List.filter_congr ?_
    intro a _
    unfold attrPass
    rw [isAllowedAttr_lower]

theorem attribute_decision_and_removal_witness :
    (([("href".data, "javascript:alert(1)".data), ("title".data, "t".data)].map
        Prod.fst).Nodup) ∧
    sanitizeAttrs "a".data
        [("href".data, "javascript:alert(1)".data), ("title".data, "t".data)] =
      [("href".data, "javascript:alert(1)".data), ("title".data, "t".data)].filter
        (fun a => isAllowedAttr "a".data a.1 &&
          (!(decide (lowerStr a.1 = "href".data) || decide (lowerStr a.1 = "src".data)) ||
            isSafeUrl (some a.2))) :=
  ⟨by decide, attribute_decision_and_removal.2 "a".data _ (by decide)⟩

/-- C5: string-level idempotence of `sanitize`.  The parsing and
serialization collaborators are abstracted (spec sections 1 and 6); the
hypotheses record what the spec assumes of them: the parser yields a DOM
tree with distinct node identities, and parsing the serialization of the
sanitized tree yields that tree back. -/
theorem sanitize_idempotent (parse : Str → NodeList) (serialize : NodeList → Str) (s : Str)
    (hwf : (forestAllIds (parse s)).Nodup)
    (hround : parse (serialize (sanitizeWalk (parse s))) = sanitizeWalk (parse s)) :
    sanitizeStr parse serialize (sanitizeStr parse serialize s) =
      sanitizeStr parse serialize s := by
  unfold sanitizeStr
  rw [hround, sanitizeWalk_idem (parse s) hwf]

theorem sanitize_idempotent_witness :
    (forestAllIds ((fun _ : Str => NL [.elem 0 "p".data [] .nil]) "x".data)).Nodup ∧
    (fun _ : Str => NL [.elem 0 "p".data [] .nil])
        ((fun _ : NodeList => "y".data)
          (sanitizeWalk ((fun _ : Str => NL [.elem 0 "p".data [] .nil]) "x".data))) =
      sanitizeWalk ((fun _ : Str => NL [.elem 0 "p".data [] .nil]) "x".data) ∧
    sanitizeStr (fun _ => NL [.elem 0 "p".data [] .nil]) (fun _ => "y".data)
        (sanitizeStr (fun _ => NL [.elem 0 "p".data [] .nil]) (fun _ => "y".data) "x".data) =
      sanitizeStr (fun _ => NL [.elem 0 "p".data [] .nil]) (fun _ => "y".data) "x".data :=
  ⟨by decide, by decide,
   sanitize_idempotent (fun _ => NL [.elem 0 "p".data [] .nil]) (fun _ => "y".data)
     "x".data (by decide) (by decide)⟩

/-- C6 counterexample: the claim's algorithm omits the lowercasing the
code performs on the current `rel` value.  On a `target="_blank"` anchor
with `rel="FOO"`, the code writes `foo noopener noreferrer` — the claim's
algorithm would write `FOO noopener noreferrer` — so the pre-existing
token `FOO` is not preserved as the claim states. -/
theorem hardener_claim_counterexample :
    lowerStr "a".data = "a".data ∧
    getAttr [("target".data, "_blank".data), ("rel".data, "FOO".data)] "target".data =
      some "_blank".data ∧
    ensureSafeLinkAttrs "a".data
        [("target".data, "_blank".data), ("rel".data, "FOO".data)] ≠
      claimHarden "a".data [("target".data, "_blank".data), ("rel".data, "FOO".data)] ∧
    getAttr (ensureSafeLinkAttrs "a".data
        [("target".data, "_blank".data), ("rel".data, "FOO".data)]) "rel".data =
      some "foo noopener noreferrer".data ∧
    "FOO".data ∈ splitWs ((getAttr [("target".data, "_blank".data),
        ("rel".data, "FOO".data)] "rel".data).getD []) ∧
    "FOO".data ∉ splitWs ((getAttr (ensureSafeLinkAttrs "a".data
        [("target".data, "_blank".data), ("rel".data, "FOO".data)]) "rel".data).getD []) := by
  decide

/-- C6 as amended: the hardener lowercases the current `rel` value, then
splits on whitespace into deduplicated first-seen-order tokens, appends
`noopener` then `noreferrer` when absent and writes the space-joined
result back, so the output `rel` contains both tokens and preserves the
pre-existing tokens in lowercased form; it is a no-op when `target` is
absent or not `_blank`. -/
theorem hardener_amended :
    (∀ (tagName : Str) (attrs : List (Str × Str)),
      ensureSafeLinkAttrs tagName attrs = specHarden tagName attrs) ∧
    (∀ (tagName : Str) (attrs : List (Str × Str)),
      ¬(lowerStr tagName = "a".data ∧
        getAttr attrs "target".data = some "_blank".data) →
      ensureSafeLinkAttrs tagName attrs = attrs) ∧
    (∀ (tagName : Str) (attrs : List (Str × Str)),
      lowerStr tagName = "a".data →
      getAttr attrs "target".data = some "_blank".data →
      getAttr (ensureSafeLinkAttrs tagName attrs) "rel".data =
        some (joinSpace (relTokens attrs)) ∧
      "noopener".data ∈ relTokens attrs ∧
      "noreferrer".data ∈ relTokens attrs ∧
      (∀ t ∈ splitWs (lowerStr ((getAttr attrs "rel".data).getD [])),
        t ∈ relTokens attrs) ∧
      (relTokens attrs).Nodup) := by
  refine ⟨ensureSafeLinkAttrs_eq_specHarden, ensureSafeLinkAttrs_noop, ?_⟩
  intro tagName attrs h1 h2
  refine ⟨?_, noopener_mem_relTokens attrs, noreferrer_mem_relTokens attrs,
    relTokens_preserves attrs, relTokens_nodup attrs⟩
  rw [ensureSafeLinkAttrs_active _ _ ⟨h1, h2⟩, getAttr_setAttr_same]

theorem hardener_amended_witness :
    ¬(lowerStr "p".data = "a".data ∧
      getAttr [("target".data, "_blank".data)] "target".data = some "_blank".data) ∧
    ensureSafeLinkAttrs "p".data [("target".data, "_blank".data)] =
      [("target".data, "_blank".data)] ∧
    lowerStr "A".data = "a".data ∧
    getAttr [("target".data, "_blank".data), ("rel".data, "External  FOO".data)]
      "target".data = some "_blank".data ∧
    getAttr (ensureSafeLinkAttrs "A".data
        [("target".data, "_blank".data), ("rel".data, "External  FOO".data)]) "rel".data =
      some (joinSpace (relTokens
        [("target".data, "_blank".data), ("rel".data, "External  FOO".data)])) :=
  ⟨by decide,
   hardener_amended.2.1 "p".data [("target".data, "_blank".data)] (by decide),
   by decide, by decide,
   (hardener_amended.2.2 "A".data
     [("target".data, "_blank".data), ("rel".data, "External  FOO".data)]
     (by decide) (by decide)).1⟩

/-- C7 counterexample: a well-formed tree whose unwrapped element
(`custom`, neither safe nor always-dropped) has an element descendant
(`script`) holding text.  The claim asserts the unwrapped element's text
and element descendants appear in the serialized output; the sanitizer's
output is the empty tree, because the spliced descendants are still
classified by later walker steps and dropped. -/
theorem unwrap_claim_counterexample :
    lowerStr "custom".data ∉ SAFE_ELEMENTS ∧
    lowerStr "custom".data ∉ ALWAYS_DROP ∧
    (forestAllIds (NL [.elem 0 "custom".data []
      (NL [.elem 1 "script".data [] (NL [.text 2 "t".data])])])).Nodup ∧
    (Node.elem 1 "script".data [] (NL [.text 2 "t".data])) ∈
      forestSubnodes (NL [.elem 0 "custom".data []
        (NL [.elem 1 "script".data [] (NL [.text 2 "t".data])])]) ∧
    sanitizeWalk (NL [.elem 0 "custom".data []
      (NL [.elem 1 "script".data [] (NL [.text 2 "t".data])])]) = .nil := by
  decide

/-- C7 as amended: the walker step on an element whose tag is neither in
`SAFE_ELEMENTS` nor in `ALWAYS_DROP` splices its children into the
parent at the element's former position preserving their relative order
and removes the element node itself; the spliced descendants remain in
the tree at that position but stay subject to their own classification
by later walker steps, and the unwrapped element's identity never
appears in the output. -/
theorem unwrap_amended :
    (∀ (i : Nat) (tag : Str) (attrs : List (Str × Str)) (cs A B : NodeList),
      i ∉ forestElemIds A → lowerStr tag ∉ ALWAYS_DROP →
      lowerStr tag ∉ SAFE_ELEMENTS →
      stepForest i (A ++ .cons (.elem i tag attrs cs) B) =
        (A ++ (cs ++ B), [.elem i tag attrs .nil])) ∧
    (∀ F : NodeList, (forestAllIds F).Nodup →
      ∀ (i : Nat) (tag : Str) (attrs : List (Str × Str)) (cs : NodeList),
        (Node.elem i tag attrs cs) ∈ forestSubnodes F →
        lowerStr tag ∉ SAFE_ELEMENTS →
        i ∉ forestElemIds (sanitizeWalk F)) := by
  constructor
  · intro i tag attrs cs A B hA h1 h2
    exact stepForest_unwrap i tag attrs cs A B hA h1 h2
  · intro F hnd i tag attrs cs hmem h
    rw [sanitizeWalk_eq_pure F ((forestElemIds_sublist_allIds F).nodup hnd)]
    exact nonsafe_id_absent F hnd i tag attrs cs hmem h

theorem unwrap_amended_witness :
    (0 ∉ forestElemIds (NL [.text 9 "pre".data])) ∧
    lowerStr "custom".data ∉ ALWAYS_DROP ∧
    lowerStr "custom".data ∉ SAFE_ELEMENTS ∧
    stepForest 0 (NL [.text 9 "pre".data] ++
        .cons (.elem 0 "custom".data []
          (NL [.text 1 "hello".data, .elem 2 "b".data [] (NL [.text 3 "world".data])]))
          (NL [.text 4 "post".data])) =
      (NL [.text 9 "pre".data] ++
        (NL [.text 1 "hello".data, .elem 2 "b".data [] (NL [.text 3 "world".data])] ++
          NL [.text 4 "post".data]),
        [.elem 0 "custom".data [] .nil]) ∧
    0 ∉ forestElemIds (sanitizeWalk (NL [.elem 0 "custom".data []
      (NL [.text 1 "hello".data, .elem 2 "b".data [] (NL [.text 3 "world".data])])])) :=
  ⟨by decide, by decide, by decide,
   unwrap_amended.1 0 "custom".data []
     (NL [.text 1 "hello".data, .elem 2 "b".data [] (NL [.text 3 "world".data])])
     (NL [.text 9 "pre".data]) (NL [.text 4 "post".data])
     (by decide) (by decide) (by decide),
   unwrap_amended.2
     (NL [.elem 0 "custom".data []
       (NL [.text 1 "hello".data, .elem 2 "b".data [] (NL [.text 3 "world".data])])])
     (by decide) 0 "custom".data []
     (NL [.text 1 "hello".data, .elem 2 "b".data [] (NL [.text 3 "world".data])])
     (by decide) (by decide)⟩

/-- C8: `sanitize` returns the empty string for null input regardless of
which document builders exist (no parser is consulted); it raises the
configuration error exactly when the input is non-null and neither an
explicit `options.createDocument` nor an ambient builder is available;
in every other case it returns the serialization of the fully walked
tree — there is no partial-success outcome. -/
theorem sanitize_entry_contract :
    (∀ (options : SanitizeOptions) (ambient : Option (Str → NodeList))
        (serialize : NodeList → Str),
      sanitize none options ambient serialize = .ok []) ∧
    (∀ (h : Str) (options : SanitizeOptions) (ambient : Option (Str → NodeList))
        (serialize : NodeList → Str),
      sanitize (some h) options ambient serialize = .error .configurationError ↔
        options.createDocument = none ∧ ambient = none) ∧
    (∀ (h : Str) (options : SanitizeOptions) (ambient : Option (Str → NodeList))
        (serialize : NodeList → Str) (f : Str → NodeList),
      options.createDocument = some f →
      sanitize (some h) options ambient serialize =
        .ok (serialize (sanitizeWalk (f h)))) ∧
    (∀ (h : Str) (options : SanitizeOptions) (ambient : Option (Str → NodeList))
        (serialize : NodeList → Str) (g : Str → NodeList),
      options.createDocument = none → ambient = some g →
      sanitize (some h) options ambient serialize =
        .ok (serialize (sanitizeWalk (g h)))) := by
  refine ⟨fun _ _ _ => rfl, ?_, ?_, ?_⟩
  · intro h options ambient serialize
    constructor
    · intro he
      cases hcd : options.createDocument with
      | some f => simp [sanitize, hcd] at he
      | none =>
        cases ha : ambient with
        | some g => simp [sanitize, hcd, ha] at he
        | none => exact ⟨rfl, rfl⟩
    · rintro ⟨h1, h2⟩
      simp [sanitize, h1, h2]
  · intro h options ambient serialize f hf
    simp [sanitize, hf]
  · intro h options ambient serialize g h1 h2
    simp [sanitize, h1, h2]

theorem sanitize_entry_contract_witness :
    sanitize none ⟨some fun _ => NodeList.nil⟩ none (fun _ => "z".data) = .ok [] ∧
    sanitize (some "x".data) ⟨none⟩ none (fun _ => "z".data) =
      .error .configurationError ∧
    (SanitizeOptions.mk (some fun _ => NL [.elem 0 "p".data [] .nil])).createDocument =
      some (fun _ => NL [.elem 0 "p".data [] .nil]) ∧
    sanitize (some "x".data) ⟨some fun _ => NL [.elem 0 "p".data [] .nil]⟩ none
        (fun _ => "z".data) =
      .ok ((fun _ => "z".data)
        (sanitizeWalk ((fun _ : Str => NL [.elem 0 "p".data [] .nil]) "x".data))) :=
  ⟨sanitize_entry_contract.1 ⟨some fun _ => NodeList.nil⟩ none (fun _ => "z".data),
   (sanitize_entry_contract.2.1 "x".data ⟨none⟩ none (fun _ => "z".data)).mpr ⟨rfl, rfl⟩,
   rfl,
   sanitize_entry_contract.2.2.1 "x".data ⟨some fun _ => NL [.elem 0 "p".data [] .nil]⟩
     none (fun _ => "z".data) (fun _ => NL [.elem 0 "p".data [] .nil]) rfl⟩

/-- C9: the walker's visitation sequence is the snapshot of the elements
reachable from the root, computed before any mutation; applying the
classifier to a snapshot entry that is no longer in the live tree (its
ancestor was dropped) is total, leaves the live tree unchanged, and has
no effect on the live tree the remaining walk produces — hence none on
the serialized output. -/
theorem walker_detached_safe :
    (∀ root : NodeList, walkAndSanitize root =
      (forestElemIds root).foldl stepState { live := root, det := [] }) ∧
    (∀ (st : DomState) (i : Nat), i ∉ forestElemIds st.live →
      (stepState st i).live = st.live) ∧
    (∀ (st : DomState) (i : Nat) (ids : List Nat), i ∉ forestElemIds st.live →
      (ids.foldl stepState (stepState st i)).live =
        (ids.foldl stepState st).live) :=
  ⟨fun _ => rfl, stepState_detached, walk_detached_no_effect⟩

theorem walker_detached_safe_witness :
    (5 ∉ forestElemIds (NL [.text 0 "x".data])) ∧
    (stepState ⟨NL [.text 0 "x".data], [.elem 5 "p".data [("style".data, "c".data)] .nil]⟩
      5).live = NL [.text 0 "x".data] ∧
    (List.foldl stepState
        (stepState ⟨NL [.text 0 "x".data],
          [.elem 5 "p".data [("style".data, "c".data)] .nil]⟩ 5) []).live =
      (List.foldl stepState
        (⟨NL [.text 0 "x".data],
          [.elem 5 "p".data [("style".data, "c".data)] .nil]⟩ : DomState) []).live :=
  ⟨by decide,
   walker_detached_safe.2.1
     ⟨NL [.text 0 "x".data], [.elem 5 "p".data [("style".data, "c".data)] .nil]⟩ 5
     (by decide),
   walker_detached_safe.2.2
     ⟨NL [.text 0 "x".data], [.elem 5 "p".data [("style".data, "c".data)] .nil]⟩ 5 []
     (by decide)⟩

/-- C10: the keep branch rewrites an element's attributes exactly through
the loop then the hardener, and on a kept element the sanitizer either
removes an attribute entirely or keeps its original (name, value) pair
unchanged — the only attribute it ever writes is `rel`, and only on an
anchor whose `target` attribute value is `_blank`. -/
theorem kept_attribute_frame :
    (∀ (i : Nat) (tag : Str) (attrs : List (Str × Str)) (cs : NodeList),
      lowerStr tag ∉ ALWAYS_DROP → lowerStr tag ∈ SAFE_ELEMENTS →
      classify i tag attrs cs =
        (single (.elem i tag
          (ensureSafeLinkAttrs tag (sanitizeAttrs (lowerStr tag) attrs)) cs), [])) ∧
    (∀ (tagName : Str) (attrs : List (Str × Str)),
      ∀ a ∈ ensureSafeLinkAttrs tagName (sanitizeAttrs (lowerStr tagName) attrs),
        a ∈ attrs ∨ (a.1 = "rel".data ∧ lowerStr tagName = "a".data ∧
          getAttr (sanitizeAttrs (lowerStr tagName) attrs) "target".data =
            some "_blank".data)) := by
  constructor
  · intro i tag attrs cs h1 h2
    simp [classify, h1, h2]
  · intro tagName attrs a ha
    rcases mem_ensureSafeLinkAttrs _ _ _ ha with h | ⟨hrel, htag, htar⟩
    · exact Or.inl (mem_sanitizeAttrs _ _ _ h).1
    · exact Or.inr ⟨by rw [hrel], htag, htar⟩

theorem kept_attribute_frame_witness :
    lowerStr "a".data ∉ ALWAYS_DROP ∧
    lowerStr "a".data ∈ SAFE_ELEMENTS ∧
    classify 0 "a".data [("style".data, "c".data), ("target".data, "_blank".data)] .nil =
      (single (.elem 0 "a".data
        (ensureSafeLinkAttrs "a".data (sanitizeAttrs (lowerStr "a".data)
          [("style".data, "c".data), ("target".data, "_blank".data)])) .nil), []) ∧
    (("target".data, "_blank".data) ∈ ensureSafeLinkAttrs "a".data
      (sanitizeAttrs (lowerStr "a".data)
        [("style".data, "c".data), ("target".data, "_blank".data)])) ∧
    ((("target".data, "_blank".data) ∈
        [("style".data, "c".data), ("target".data, "_blank".data)]) ∨
      (("target".data, "_blank".data).1 = "rel".data ∧ lowerStr "a".data = "a".data ∧
        getAttr (sanitizeAttrs (lowerStr "a".data)
          [("style".data, "c".data), ("target".data, "_blank".data)]) "target".data =
          some "_blank".data)) :=
  ⟨by decide, by decide,
   kept_attribute_frame.1 0 "a".data
     [("style".data, "c".data), ("target".data, "_blank".data)] .nil
     (by decide) (by decide),
   by decide,
   kept_attribute_frame.2 "a".data
     [("style".data, "c".data), ("target".data, "_blank".data)]
     ("target".data, "_blank".data) (by decide)⟩
